import Mathlib

/-!
A shallow embedding of the chain-storage accessor layer of the repository
(`core/rawdb/accessors_chain.go`), together with theorems settling the
specification claims about it.

Modelling conventions:
* Byte strings (Go `[]byte`, `rlp.RawValue`) are lists of naturals.
* The two backing stores are modelled explicitly.  The mutable key/value
  store ("live" store) is a map from keys to optional values; the ancient
  store is a family of sequential tables indexed by block number.  A `none`
  from an ancient table stands for the error return of `db.Ancient`.
* A read accessor performs its probes against successive store snapshots
  (`s1`, `s2`, `s3`, one per probe step), which makes the behaviour of a
  read racing the background live→ancient migrator expressible: the store
  may differ between the probe steps of a single call.
* RLP codecs live outside this layer (package `rlp` of go-ethereum); the
  decoded-value accessors take the relevant decode function as an explicit
  argument, a partial function from bytes to values (`none` = decode error).
* `Header.Hash()` is a deterministic function of the header contents; it is
  modelled as a field of the header record.
-/

namespace AtlasRawdb

/-- Raw byte strings (Go `[]byte`, `rlp.RawValue`). -/
abbrev Bytes := List Nat

/-- Go `common.BytesToHash`: keep the last 32 bytes, left-padded with zeros
to length 32. -/
def bytesToHash (b : Bytes) : Bytes :=
  let b2 := if 32 < b.length then b.drop (b.length - 32) else b
  List.replicate (32 - b2.length) 0 ++ b2

/-- `encodeBlockNumber`: the 8-byte big-endian encoding of a block number
(source file `core/rawdb`, key codec). -/
def encodeBlockNumber (number : Nat) : Bytes :=
  [number / 256 ^ 7 % 256, number / 256 ^ 6 % 256, number / 256 ^ 5 % 256,
   number / 256 ^ 4 % 256, number / 256 ^ 3 % 256, number / 256 ^ 2 % 256,
   number / 256 % 256, number % 256]

/-- Go `binary.BigEndian.Uint64` on a byte slice. -/
def decodeBlockNumber (b : Bytes) : Nat :=
  b.foldl (fun acc x => acc * 256 + x) 0

/-- Go `bytes.Compare`: lexicographic byte-string comparison, a proper
prefix comparing less than its extensions. -/
def byteCompare : Bytes → Bytes → Ordering
  | [], [] => .eq
  | [], _ :: _ => .lt
  | _ :: _, [] => .gt
  | a :: as, b :: bs =>
    if a < b then .lt else if b < a then .gt else byteCompare as bs

/-! ### Key codec

Modelled from the spec: the key-codec source file (`schema.go`) is not part
of the provided sources; the layout below follows spec §6 ("Persisted
layout"), with the concrete prefix/suffix bytes of the upstream schema
(`headerPrefix = "h"`, canonical suffix `"n"`, body prefix `"b"`, receipt
prefix `"r"`, TD suffix `"t"`).  The names drop the `-Prefix` suffix of the
source (`headerPfx` for `headerPrefix`, and so on). -/

def headerPfx : Bytes := [104]

def headerHashSuffix : Bytes := [110]

def bodyPfx : Bytes := [98]

def receiptsPfx : Bytes := [114]

/-- `headerKey(number, hash)` = headerPfx ++ num(8) ++ hash(32). -/
def headerKey (number : Nat) (hash : Bytes) : Bytes :=
  headerPfx ++ encodeBlockNumber number ++ hash

/-- `headerHashKey(number)` = headerPfx ++ num(8) ++ "n": the canonical
number→hash entry. -/
def headerHashKey (number : Nat) : Bytes :=
  headerPfx ++ encodeBlockNumber number ++ headerHashSuffix

/-- `headerTDKey(number, hash)` = headerPfx ++ num(8) ++ hash ++ "t". -/
def headerTDKey (number : Nat) (hash : Bytes) : Bytes :=
  headerPfx ++ encodeBlockNumber number ++ hash ++ [116]

/-- `blockBodyKey(number, hash)` = bodyPfx ++ num(8) ++ hash. -/
def blockBodyKey (number : Nat) (hash : Bytes) : Bytes :=
  bodyPfx ++ encodeBlockNumber number ++ hash

/-- `blockReceiptsKey(number, hash)` = receiptsPfx ++ num(8) ++ hash. -/
def blockReceiptsKey (number : Nat) (hash : Bytes) : Bytes :=
  receiptsPfx ++ encodeBlockNumber number ++ hash

/-! ### The two-tier store -/

/-- The sequential tables of the ancient (freezer) store:
`freezerHashTable`, `freezerHeaderTable`, `freezerBodiesTable`,
`freezerReceiptTable`, `freezerDifficultyTable`. -/
inductive FreezerTable
  | hashes
  | headers
  | bodies
  | receipts
  | diffs
deriving DecidableEq

/-- One snapshot of the two-tier store.  `ancient t n = none` models the
error return of `db.Ancient`; `kv k = none` models a missing live key. -/
structure DBState where
  ancient : FreezerTable → Nat → Option Bytes
  kv : Bytes → Option Bytes

/-- Go `data, _ := db.Ancient(table, number)`: the error is discarded and
the data is `nil` (empty) in the error case. -/
def ancientData (s : DBState) (t : FreezerTable) (number : Nat) : Bytes :=
  (s.ancient t number).getD []

/-- Go `data, _ := db.Get(key)`: the error is discarded and the data is
`nil` (empty) in the missing/error case. -/
def getData (s : DBState) (key : Bytes) : Bytes :=
  (s.kv key).getD []

/-- Go `has, err := db.Has(key)` collapsed to `has && err == nil`. -/
def hasKey (s : DBState) (key : Bytes) : Bool :=
  (s.kv key).isSome

/-- A store holding nothing at all. -/
def emptyDB : DBState :=
  { ancient := fun _ _ => none, kv := fun _ => none }

/-! ### Two-tier raw reads (`ReadHeaderRLP`, `ReadBodyRLP`, `ReadTdRLP`,
`ReadReceiptsRLP`)

Each function takes one store snapshot per probe step; a call against a
quiescent store is the diagonal `f s s s`. -/

/-- `ReadHeaderRLP`: ancient header table (no hash comparison), then the
live store under `headerKey`, then the ancient table once more. -/
def ReadHeaderRLP (s1 s2 s3 : DBState) (hash : Bytes) (number : Nat) :
    Option Bytes :=
  let data := ancientData s1 .headers number
  if 0 < data.length then some data
  else
    let data2 := getData s2 (headerKey number hash)
    if 0 < data2.length then some data2
    else
      let data3 := ancientData s3 .headers number
      if 0 < data3.length then some data3
      else none

/-- `ReadBodyRLP`: ancient bodies table guarded by the ancient
canonical-hash table, then the live store, then ancient once more. -/
def ReadBodyRLP (s1 s2 s3 : DBState) (hash : Bytes) (number : Nat) :
    Option Bytes :=
  let data := ancientData s1 .bodies number
  if 0 < data.length ∧ bytesToHash (ancientData s1 .hashes number) = hash then
    some data
  else
    let data2 := getData s2 (blockBodyKey number hash)
    if 0 < data2.length then some data2
    else
      let data3 := ancientData s3 .bodies number
      if 0 < data3.length ∧ bytesToHash (ancientData s3 .hashes number) = hash then
        some data3
      else none

/-- `ReadTdRLP`: same three-step shape as `ReadBodyRLP` over the
difficulty table and `headerTDKey`. -/
def ReadTdRLP (s1 s2 s3 : DBState) (hash : Bytes) (number : Nat) :
    Option Bytes :=
  let data := ancientData s1 .diffs number
  if 0 < data.length ∧ bytesToHash (ancientData s1 .hashes number) = hash then
    some data
  else
    let data2 := getData s2 (headerTDKey number hash)
    if 0 < data2.length then some data2
    else
      let data3 := ancientData s3 .diffs number
      if 0 < data3.length ∧ bytesToHash (ancientData s3 .hashes number) = hash then
        some data3
      else none

/-- `ReadReceiptsRLP`: same three-step shape over the receipt table and
`blockReceiptsKey`. -/
def ReadReceiptsRLP (s1 s2 s3 : DBState) (hash : Bytes) (number : Nat) :
    Option Bytes :=
  let data := ancientData s1 .receipts number
  if 0 < data.length ∧ bytesToHash (ancientData s1 .hashes number) = hash then
    some data
  else
    let data2 := getData s2 (blockReceiptsKey number hash)
    if 0 < data2.length then some data2
    else
      let data3 := ancientData s3 .receipts number
      if 0 < data3.length ∧ bytesToHash (ancientData s3 .hashes number) = hash then
        some data3
      else none

/-! ### Existence checks (`HasHeader`, `HasBody`, `HasReceipts`)

The source makes exactly two probes here: the ancient canonical-hash table,
then `db.Has` on the live store.  `s1` is the snapshot of the first probe,
`s2` of the second. -/

/-- `HasHeader`. -/
def HasHeader (s1 s2 : DBState) (hash : Bytes) (number : Nat) : Bool :=
  if (match s1.ancient .hashes number with
      | some has => decide (bytesToHash has = hash)
      | none => false) then
    true
  else hasKey s2 (headerKey number hash)

/-- `HasBody`. -/
def HasBody (s1 s2 : DBState) (hash : Bytes) (number : Nat) : Bool :=
  if (match s1.ancient .hashes number with
      | some has => decide (bytesToHash has = hash)
      | none => false) then
    true
  else hasKey s2 (blockBodyKey number hash)

/-- `HasReceipts`. -/
def HasReceipts (s1 s2 : DBState) (hash : Bytes) (number : Nat) : Bool :=
  if (match s1.ancient .hashes number with
      | some has => decide (bytesToHash has = hash)
      | none => false) then
    true
  else hasKey s2 (blockReceiptsKey number hash)

/-! ### Specification-side probe functions (used only in theorem
statements, to name the individual probe steps of the read path) -/

/-- One ancient-store probe with the canonical-hash comparison. -/
def ancientProbe (s : DBState) (t : FreezerTable) (hash : Bytes)
    (number : Nat) : Option Bytes :=
  let d := ancientData s t number
  if 0 < d.length ∧ bytesToHash (ancientData s .hashes number) = hash then
    some d
  else none

/-- One live-store probe. -/
def liveProbe (s : DBState) (key : Bytes) : Option Bytes :=
  let d := getData s key
  if 0 < d.length then some d else none

/-- The ancient canonical-hash comparison of the existence checks. -/
def ancientHashMatch (s : DBState) (number : Nat) (hash : Bytes) : Bool :=
  match s.ancient .hashes number with
  | some has => decide (bytesToHash has = hash)
  | none => false

/-! ### Entities

Headers, bodies, transactions, logs and receipts (`core/types`, not part of
the accessor layer).  Fields this layer never inspects are collapsed into a
single opaque `content` payload; the derived computation `Header.Hash()` /
`Transaction.Hash()` is modelled as a stored field. -/

/-- A block header: its height, the parent link, and its own hash. -/
structure Header where
  number : Nat
  parentHash : Bytes
  hash : Bytes
deriving DecidableEq, Repr

/-- A transaction; only its hash is observed by this layer. -/
structure Transaction where
  hash : Bytes
deriving DecidableEq, Repr

/-- A block body: the ordered transaction list (the consensus extras —
randomness, epoch snark data — are opaque here). -/
structure Body where
  transactions : List Transaction
deriving DecidableEq, Repr

/-- A log entry: the opaque payload (address/topics/data) plus the derived
metadata fields which are populated only on read. -/
structure Log where
  content : Nat
  blockNumber : Nat
  blockHash : Bytes
  txHash : Bytes
  txIndex : Nat
  index : Nat
deriving DecidableEq, Repr

/-- A receipt, opaque to the raw accessors. -/
structure Receipt where
  content : Nat
deriving DecidableEq, Repr

/-! ### Decoded reads (`ReadHeader`, `ReadBody`, `ReadTd`,
`ReadRawReceipts`)

Each takes its RLP decoder as an explicit partial function; the source logs
a decode failure and returns `nil`. -/

/-- `ReadHeader`. -/
def ReadHeader (decodeHeader : Bytes → Option Header) (s1 s2 s3 : DBState)
    (hash : Bytes) (number : Nat) : Option Header :=
  let data := (ReadHeaderRLP s1 s2 s3 hash number).getD []
  if data.length = 0 then none
  else decodeHeader data

/-- `ReadBody`. -/
def ReadBody (decodeBody : Bytes → Option Body) (s1 s2 s3 : DBState)
    (hash : Bytes) (number : Nat) : Option Body :=
  let data := (ReadBodyRLP s1 s2 s3 hash number).getD []
  if data.length = 0 then none
  else decodeBody data

/-- `ReadTd` (a total difficulty is a big integer). -/
def ReadTd (decodeTd : Bytes → Option Nat) (s1 s2 s3 : DBState)
    (hash : Bytes) (number : Nat) : Option Nat :=
  let data := (ReadTdRLP s1 s2 s3 hash number).getD []
  if data.length = 0 then none
  else decodeTd data

/-- `ReadRawReceipts`; the storage-form → internal-form per-receipt cast of
the source is the identity here. -/
def ReadRawReceipts (decodeReceipts : Bytes → Option (List Receipt))
    (s1 s2 s3 : DBState) (hash : Bytes) (number : Nat) :
    Option (List Receipt) :=
  let data := (ReadReceiptsRLP s1 s2 s3 hash number).getD []
  if data.length = 0 then none
  else decodeReceipts data

/-! ### Log-field derivation (`deriveLogFields`, `ReadLogs`)

A stored receipt is represented by its log list (`receiptLogs`). -/

/-- The inner loop of `deriveLogFields`: stamp one receipt's logs with the
block/transaction metadata, threading the running log index. -/
def deriveReceiptLogs (logs : List Log) (hash : Bytes) (number : Nat)
    (txHash : Bytes) (txIndex : Nat) (logIndex : Nat) : List Log :=
  match logs with
  | [] => []
  | l :: ls =>
    { l with
      blockNumber := number, blockHash := hash, txHash := txHash,
      txIndex := txIndex, index := logIndex } ::
      deriveReceiptLogs ls hash number txHash txIndex (logIndex + 1)

/-- The outer loops of `deriveLogFields`: receipts paired with the
transactions (first loop of the source); a receipt beyond the transaction
list — at most one, by the guard in `deriveLogFields` — is the block
finalization receipt and is attributed to the block hash itself (second
loop of the source). -/
def deriveAllLogs (receipts : List (List Log)) (txs : List Transaction)
    (hash : Bytes) (number : Nat) (txIndex logIndex : Nat) :
    List (List Log) :=
  match receipts, txs with
  | [], _ => []
  | r :: rs, t :: ts =>
    deriveReceiptLogs r hash number t.hash txIndex logIndex ::
      deriveAllLogs rs ts hash number (txIndex + 1) (logIndex + r.length)
  | r :: rs, [] =>
    deriveReceiptLogs r hash number hash txIndex logIndex ::
      deriveAllLogs rs [] hash number (txIndex + 1) (logIndex + r.length)

/-- `deriveLogFields`. -/
def deriveLogFields (receipts : List (List Log)) (hash : Bytes)
    (number : Nat) (txs : List Transaction) :
    Except String (List (List Log)) :=
  if ¬(txs.length = receipts.length ∨ txs.length + 1 = receipts.length) then
    .error "transaction and receipt count mismatch"
  else
    .ok (deriveAllLogs receipts txs hash number 0 0)

/-- `ReadLogs`: fetch the receipt bytes, decode the barebone log lists,
fetch the body, derive the metadata; every failure collapses to `none`. -/
def ReadLogs (decodeReceiptLogs : Bytes → Option (List (List Log)))
    (decodeBody : Bytes → Option Body) (s1 s2 s3 : DBState) (hash : Bytes)
    (number : Nat) : Option (List (List Log)) :=
  let data := (ReadReceiptsRLP s1 s2 s3 hash number).getD []
  if data.length = 0 then none
  else
    match decodeReceiptLogs data with
    | none => none
    | some receipts =>
      match ReadBody decodeBody s1 s2 s3 hash number with
      | none => none
      | some body =>
        match deriveLogFields receipts hash number body.transactions with
        | .error _ => none
        | .ok derived => some derived

/-- Total log count of a receipt list (used to state the log-index
contiguity property). -/
def sumLens (receipts : List (List Log)) : Nat :=
  (receipts.map List.length).sum

/-! ### Iteration over the live store (`ReadAllHashesInRange`,
`ReadAllCanonicalHashes`)

For the two range queries the live store is modelled as a finite list of
key/value entries; `db.NewIterator(pfx, start)` yields the entries whose
key has prefix `pfx` and is not below `pfx ++ start`, in ascending
byte-lexicographic key order (which is independent of the order of the
entry list, as in a real key/value store). -/

abbrev KVStore := List (Bytes × Bytes)

/-- Insert one entry into a key-sorted entry list. -/
def insertEntry (e : Bytes × Bytes) : KVStore → KVStore
  | [] => [e]
  | x :: xs =>
    if byteCompare x.1 e.1 = .gt then e :: x :: xs else x :: insertEntry e xs

/-- Sort an entry list by key (insertion sort). -/
def sortEntries (l : KVStore) : KVStore :=
  l.foldr insertEntry []

/-- The iterator: entries with key prefix `pfx`, from `pfx ++ start` on,
in ascending key order. -/
def iterEntries (store : KVStore) (pfx start : Bytes) : KVStore :=
  sortEntries (store.filter fun e =>
    pfx.isPrefixOf e.1 && decide (byteCompare e.1 (pfx ++ start) ≠ .lt))

/-- The loop body of `ReadAllHashesInRange`: skip keys of the wrong
length (`continue`), stop at a number beyond `last` (`break`), collect
`(number, hash)` otherwise. -/
def hashesInRangeLoop (last keyLength : Nat) :
    KVStore → List (Nat × Bytes)
  | [] => []
  | (key, _) :: rest =>
    if key.length ≠ keyLength then hashesInRangeLoop last keyLength rest
    else
      let num := decodeBlockNumber ((key.drop headerPfx.length).take 8)
      if last < num then []
      else
        (num, bytesToHash (key.drop (key.length - 32))) ::
          hashesInRangeLoop last keyLength rest

/-- `ReadAllHashesInRange(db, first, last)`. -/
def ReadAllHashesInRange (store : KVStore) (first last : Nat) :
    List (Nat × Bytes) :=
  hashesInRangeLoop last (headerPfx.length + 8 + 32)
    (iterEntries store headerPfx (encodeBlockNumber first))

/-- The loop of `ReadAllCanonicalHashes`: stop at `endKey` (`break`),
collect keys of the exact canonical length carrying the canonical suffix
byte, and stop once `limit` entries are accumulated.  The source keeps two
parallel slices (numbers, hashes); here they are zipped into one
accumulator. -/
def canonicalHashesLoop (endKey : Bytes) (limit : Nat) :
    KVStore → List (Nat × Bytes) → List (Nat × Bytes)
  | [], acc => acc
  | (key, value) :: rest, acc =>
    if byteCompare key endKey ≠ .lt then acc
    else
      if key.length = headerPfx.length + 8 + 1 ∧
          key.drop (key.length - 1) = headerHashSuffix then
        let acc2 := acc ++
          [(decodeBlockNumber ((key.drop headerPfx.length).take 8),
            bytesToHash value)]
        if limit ≤ acc2.length then acc2
        else canonicalHashesLoop endKey limit rest acc2
      else canonicalHashesLoop endKey limit rest acc

/-- `ReadAllCanonicalHashes(db, lo, hi, limit)` (source parameter names
`from`/`to`). -/
def ReadAllCanonicalHashes (store : KVStore) (lo hi : Nat) (limit : Nat) :
    List (Nat × Bytes) :=
  if limit = 0 then []
  else
    canonicalHashesLoop (headerHashKey hi) limit
      (iterEntries store [] (headerHashKey lo)) []

/-! ### Bad-block buffer (`WriteBadBlock`) -/

/-- `badBlockToKeep`. -/
def badBlockToKeep : Nat := 10

/-- One stored bad block (source type `badBlock`). -/
structure badBlock where
  header : Header
  body : Body
deriving DecidableEq, Repr

/-- A whole block as handed to the writers: header, body, and the
per-block total-difficulty value (`Block.TotalDifficulty()`). -/
structure Block where
  header : Header
  body : Body
  totalDifficulty : Nat
deriving DecidableEq, Repr

/-- Descending-by-number ordered insert (one step of
`sort.Sort(sort.Reverse(badBlocks))`). -/
def insertBadBlockDesc (e : badBlock) : List badBlock → List badBlock
  | [] => [e]
  | x :: xs =>
    if x.header.number < e.header.number then e :: x :: xs
    else x :: insertBadBlockDesc e xs

/-- Sort a bad-block list by number, descending. -/
def sortBadBlocksDesc (l : List badBlock) : List badBlock :=
  l.foldr insertBadBlockDesc []

/-- `WriteBadBlock`, as a transformer of the decoded stored list: no-op on
a `(number, hash)` duplicate; otherwise append, sort descending by number,
truncate to `badBlockToKeep`, persist. -/
def WriteBadBlock (badBlocks : List badBlock) (block : Block) :
    List badBlock :=
  if badBlocks.any fun b =>
      b.header.number == block.header.number &&
      b.header.hash == block.header.hash then
    badBlocks
  else
    (sortBadBlocksDesc
      (badBlocks ++ [{ header := block.header, body := block.body }])).take
      badBlockToKeep

/-! ### Ancient batch commit (`WriteAncientBlocks`)

The ancient store is five parallel append-only tables plus the number of
the first frozen item.  `op.Append`/`op.AppendRaw` fail unless the item
number is exactly the next free slot of the table (the freezer's
contiguity rule); `db.ModifyAncients` is all-or-nothing, so a failed batch
leaves the store unchanged — modelled by returning `none`. -/

structure AncientStore where
  first : Nat
  hashesT : List Bytes
  headersT : List Header
  bodiesT : List Body
  receiptsT : List (List Receipt)
  diffsT : List Nat
deriving DecidableEq, Repr

/-- `op.AppendRaw(freezerHashTable, num, hash)`. -/
def appendHashT (op : AncientStore) (num : Nat) (v : Bytes) :
    Option AncientStore :=
  if num = op.first + op.hashesT.length then
    some { op with hashesT := op.hashesT ++ [v] }
  else none

/-- `op.Append(freezerHeaderTable, num, header)`. -/
def appendHeaderT (op : AncientStore) (num : Nat) (v : Header) :
    Option AncientStore :=
  if num = op.first + op.headersT.length then
    some { op with headersT := op.headersT ++ [v] }
  else none

/-- `op.Append(freezerBodiesTable, num, body)`. -/
def appendBodyT (op : AncientStore) (num : Nat) (v : Body) :
    Option AncientStore :=
  if num = op.first + op.bodiesT.length then
    some { op with bodiesT := op.bodiesT ++ [v] }
  else none

/-- `op.Append(freezerReceiptTable, num, receipts)`. -/
def appendReceiptsT (op : AncientStore) (num : Nat) (v : List Receipt) :
    Option AncientStore :=
  if num = op.first + op.receiptsT.length then
    some { op with receiptsT := op.receiptsT ++ [v] }
  else none

/-- `op.Append(freezerDifficultyTable, num, td)`. -/
def appendDiffT (op : AncientStore) (num : Nat) (v : Nat) :
    Option AncientStore :=
  if num = op.first + op.diffsT.length then
    some { op with diffsT := op.diffsT ++ [v] }
  else none

/-- `writeAncientBlock`: the five per-block appends, in source order,
aborting on the first failure. -/
def writeAncientBlock (op : AncientStore) (block : Block) (header : Header)
    (receipts : List Receipt) (td : Nat) : Option AncientStore :=
  let num := block.header.number
  match appendHashT op num block.header.hash with
  | none => none
  | some op1 =>
    match appendHeaderT op1 num header with
    | none => none
    | some op2 =>
      match appendBodyT op2 num block.body with
      | none => none
      | some op3 =>
        match appendReceiptsT op3 num receipts with
        | none => none
        | some op4 => appendDiffT op4 num td

/-- The loop of `WriteAncientBlocks`: the running total difficulty adds
the block's own value for every block but the first (`i > 0`), and the
whole batch aborts on a per-block failure. -/
def writeAncientBlocksLoop (op : AncientStore)
    (pairs : List (Block × List Receipt)) (tdSum : Nat) (i : Nat) :
    Option AncientStore :=
  match pairs with
  | [] => some op
  | (block, receipts) :: rest =>
    let tdSum2 := if 0 < i then tdSum + block.totalDifficulty else tdSum
    match writeAncientBlock op block block.header receipts tdSum2 with
    | none => none
    | some op2 => writeAncientBlocksLoop op2 rest tdSum2 (i + 1)

/-- `WriteAncientBlocks(db, blocks, receipts, td)` (the storage-form
receipt conversion is the identity here, and the byte-size return value is
not modelled). -/
def WriteAncientBlocks (op : AncientStore) (blocks : List Block)
    (receipts : List (List Receipt)) (td : Nat) : Option AncientStore :=
  writeAncientBlocksLoop op (blocks.zip receipts) td 0

/-- The total-difficulty values stored for a batch starting at running sum
`td`: the first block stores `td` itself, every later block adds its own
value to the running sum. -/
def runningTdAux (td : Nat) : List Block → List Nat
  | [] => []
  | b :: rest => (td + b.totalDifficulty) :: runningTdAux (td + b.totalDifficulty) rest

/-- See `runningTdAux`. -/
def runningTd (td : Nat) : List Block → List Nat
  | [] => []
  | _ :: rest => td :: runningTdAux td rest

/-! ### Common-ancestor search (`FindCommonAncestor`)

The database argument is abstracted to its `ReadHeader` view
`hdb : parent-hash → number → Option Header`.  Each `for` loop of the
source becomes a fuel-indexed recursion; the wrapper supplies enough fuel
for any store in which a header stored at number `n` has `number = n`
(on other stores the source would loop forever, which is not modelled).
`pred64` is Go `uint64` decrement, wrapping at zero. -/

def pred64 (n : Nat) : Nat :=
  if n = 0 then 2 ^ 64 - 1 else n - 1

/-- The first/second loop of `FindCommonAncestor`: walk `a` backward along
parent links while its height is above `bn`. -/
def fcaDescend (hdb : Bytes → Nat → Option Header) (bn : Nat) :
    Nat → Header → Option Header
  | 0, a => if bn < a.number then none else some a
  | fuel + 1, a =>
    if bn < a.number then
      match hdb a.parentHash (pred64 a.number) with
      | none => none
      | some a2 => fcaDescend hdb bn fuel a2
    else some a

/-- The third loop of `FindCommonAncestor`: walk both headers backward in
lockstep until their hashes agree. -/
def fcaLockstep (hdb : Bytes → Nat → Option Header) :
    Nat → Header → Header → Option Header
  | 0, a, b => if a.hash = b.hash then some a else none
  | fuel + 1, a, b =>
    if a.hash = b.hash then some a
    else
      match hdb a.parentHash (pred64 a.number) with
      | none => none
      | some a2 =>
        match hdb b.parentHash (pred64 b.number) with
        | none => none
        | some b2 => fcaLockstep hdb fuel a2 b2

/-- `FindCommonAncestor(db, a, b)`. -/
def FindCommonAncestor (hdb : Bytes → Nat → Option Header)
    (a b : Header) : Option Header :=
  match fcaDescend hdb b.number a.number a with
  | none => none
  | some a2 =>
    match fcaDescend hdb a2.number b.number b with
    | none => none
    | some b2 => fcaLockstep hdb (a2.number + 1) a2 b2

/-! ### Further specification-side functions -/

/-- Left-biased choice among the results of three probe steps. -/
def threeProbes (p1 p2 p3 : Option Bytes) : Option Bytes :=
  match p1 with
  | some d => some d
  | none =>
    match p2 with
    | some d => some d
    | none => p3

/-! ### Concrete stores and decoders used in witnesses and
counterexamples -/

/-- A 32-byte hash. -/
def hashW : Bytes := List.replicate 31 0 ++ [1]

/-- Another 32-byte hash, different from `hashW`. -/
def hashX : Bytes := List.replicate 31 0 ++ [2]

/-- Some stored body bytes. -/
def bodyBytesW : Bytes := [7, 7, 7]

/-- Some stored header bytes. -/
def headerBytesW : Bytes := [9, 9]

/-- The live tier before migration of block 7: the body sits in the
key/value store only. -/
def dbLive : DBState :=
  { ancient := fun _ _ => none,
    kv := fun k => if k = blockBodyKey 7 hashW then some bodyBytesW else none }

/-- The store after migration of block 7: the body and the canonical hash
sit in the ancient tables only. -/
def dbFrozen : DBState :=
  { ancient := fun t n =>
      match t, n with
      | .hashes, 7 => some hashW
      | .bodies, 7 => some bodyBytesW
      | _, _ => none,
    kv := fun _ => none }

/-- A store whose ancient header table holds block 7 (canonical hash
`hashW`). -/
def dbFrozenHdr : DBState :=
  { ancient := fun t n =>
      match t, n with
      | .hashes, 7 => some hashW
      | .headers, 7 => some headerBytesW
      | _, _ => none,
    kv := fun _ => none }

/-- A decoded header for `headerBytesW`; its hash is the canonical
`hashW`. -/
def headerW : Header := { number := 7, parentHash := [], hash := hashW }

/-- A header decoder succeeding exactly on `headerBytesW`. -/
def decodeHeaderW : Bytes → Option Header :=
  fun b => if b = headerBytesW then some headerW else none

/-- An always-failing header decoder (models corrupt stored bytes). -/
def decodeHeaderNone : Bytes → Option Header := fun _ => none

/-- An always-failing body decoder. -/
def decodeBodyNone : Bytes → Option Body := fun _ => none

/-- An always-failing receipt-list decoder. -/
def decodeReceiptsNone : Bytes → Option (List Receipt) := fun _ => none

/-- An always-failing total-difficulty decoder. -/
def decodeTdNone : Bytes → Option Nat := fun _ => none

/-- Default log value for list indexing. -/
def defLog : Log :=
  { content := 0, blockNumber := 0, blockHash := [], txHash := [],
    txIndex := 0, index := 0 }

/-- Default transaction value for list indexing. -/
def defTx : Transaction := { hash := [] }

/-- Bad-block list sorted by block number, descending. -/
def badBlocksSortedDesc (l : List badBlock) : Prop :=
  l.Pairwise fun x y => y.header.number ≤ x.header.number

/-- At most one bad-block entry per `(number, hash)` pair. -/
def badBlocksNoDup (l : List badBlock) : Prop :=
  l.Pairwise fun x y =>
    ¬(x.header.number = y.header.number ∧ x.header.hash = y.header.hash)

/-- The stored bad-block list invariant of the spec: at most
`badBlockToKeep` entries, sorted descending by number, no `(number, hash)`
duplicate. -/
def badBlocksInv (l : List badBlock) : Prop :=
  l.length ≤ badBlockToKeep ∧ badBlocksSortedDesc l ∧ badBlocksNoDup l

/-- A block for witness statements. -/
def blockW : Block :=
  { header := headerW, body := { transactions := [] }, totalDifficulty := 0 }

/-- An empty ancient store starting at block 0. -/
def ancientW : AncientStore :=
  { first := 0, hashesT := [], headersT := [], bodiesT := [],
    receiptsT := [], diffsT := [] }

/-- A block at height 0. -/
def blockA0 : Block :=
  { header := { number := 0, parentHash := [], hash := hashW },
    body := { transactions := [] }, totalDifficulty := 3 }

/-- A misnumbered follow-up block (height 5 instead of 1), which the
freezer's contiguity rule rejects. -/
def blockBad : Block :=
  { header := { number := 5, parentHash := hashW, hash := hashX },
    body := { transactions := [] }, totalDifficulty := 4 }

/-- The proper follow-up block at height 1. -/
def blockA1 : Block :=
  { header := { number := 1, parentHash := hashW, hash := hashX },
    body := { transactions := [] }, totalDifficulty := 4 }

/-- Hash of height `h` on a chain following a common trunk up to height 5
and forking above it with tag `c`. -/
def forkHash (c h : Nat) : Bytes := if h ≤ 5 then [1, h] else [c, h]

/-- The spec's example chain A: fork tag 2, used at heights 0..10. -/
def chainA (h : Nat) : Header :=
  { number := h, parentHash := forkHash 2 (h - 1), hash := forkHash 2 h }

/-- The spec's example chain B: fork tag 3, used at heights 0..7. -/
def chainB (h : Nat) : Header :=
  { number := h, parentHash := forkHash 3 (h - 1), hash := forkHash 3 h }

/-- Header lookup storing chain A below height 10 and chain B below
height 7. -/
def hdbW : Bytes → Nat → Option Header := fun hsh n =>
  if n ≤ 9 ∧ hsh = forkHash 2 n then some (chainA n)
  else if n ≤ 6 ∧ hsh = forkHash 3 n then some (chainB n)
  else none

/-- Hash on a pair of chains forking above height 2, tag `c`. -/
def gapHash (c h : Nat) : Bytes := if h ≤ 2 then [1, h] else [c, h]

/-- Chain with fork point 2, tag 2, heights 0..4. -/
def gapA (h : Nat) : Header :=
  { number := h, parentHash := gapHash 2 (h - 1), hash := gapHash 2 h }

/-- Chain with fork point 2, tag 3, heights 0..3. -/
def gapB (h : Nat) : Header :=
  { number := h, parentHash := gapHash 3 (h - 1), hash := gapHash 3 h }

/-- Lookup storing `gapA`/`gapB` with a gap at height 0 — strictly below
the fork point 2. -/
def hdbGap : Bytes → Nat → Option Header := fun hsh n =>
  if n = 0 then none
  else if n ≤ 3 ∧ hsh = gapHash 2 n then some (gapA n)
  else if n ≤ 2 ∧ hsh = gapHash 3 n then some (gapB n)
  else none

/-- Hash on a pair of chains sharing only the genesis, tag `c`. -/
def genHash (c h : Nat) : Bytes := if h = 0 then [1, 0] else [c, h]

/-- Chain sharing only the genesis, tag 2, heights 0..3. -/
def genA (h : Nat) : Header :=
  { number := h, parentHash := genHash 2 (h - 1), hash := genHash 2 h }

/-- Chain sharing only the genesis, tag 3, heights 0..2. -/
def genB (h : Nat) : Header :=
  { number := h, parentHash := genHash 3 (h - 1), hash := genHash 3 h }

/-- Lookup storing `genA`/`genB` but missing the genesis (height 0) — a
gap inside the walked range. -/
def hdbGen : Bytes → Nat → Option Header := fun hsh n =>
  if n = 0 then none
  else if n ≤ 2 ∧ hsh = genHash 2 n then some (genA n)
  else if n ≤ 1 ∧ hsh = genHash 3 n then some (genB n)
  else none

/-! ### Specification-side notions for the range queries -/

/-- An entry list sorted by ascending key. -/
def sortedKeys (l : KVStore) : Prop :=
  l.Pairwise fun p q => byteCompare p.1 q.1 ≠ .gt

/-- A key of exactly the canonical number→hash shape: canonical length
and the discriminating suffix byte. -/
def canonKey (k : Bytes) : Prop :=
  k.length = headerPfx.length + 8 + 1 ∧
    k.drop (k.length - 1) = headerHashSuffix

/-- The block number encoded in a number-prefixed key. -/
def keyNum (k : Bytes) : Nat :=
  decodeBlockNumber ((k.drop headerPfx.length).take 8)

/-- All bytes of a key are in range (true of any real store). -/
def entryWf (e : Bytes × Bytes) : Prop := ∀ d ∈ e.1, d < 256

instance (e : Bytes × Bytes) : Decidable (entryWf e) :=
  inferInstanceAs (Decidable (∀ d ∈ e.1, d < 256))

instance (k : Bytes) : Decidable (canonKey k) :=
  inferInstanceAs (Decidable (_ ∧ _))

/-- A 32-byte hash tagged `n`, for the concrete range-query stores. -/
def tagHash (n : Nat) : Bytes := List.replicate 31 0 ++ [n]

/-- A live store holding canonical entries for heights 10–20 (inserted
out of order) plus a 41-byte fork-header key and a canonical entry below
the queried range, both of which the canonical range query must not
count. -/
def canonStore : KVStore :=
  [(headerHashKey 15, tagHash 15), (headerHashKey 10, tagHash 10),
   (headerHashKey 20, tagHash 20), (headerHashKey 11, tagHash 11),
   (headerKey 12 hashW, [1]), (headerHashKey 3, tagHash 3),
   (headerHashKey 12, tagHash 12), (headerHashKey 13, tagHash 13),
   (headerHashKey 14, tagHash 14), (headerHashKey 16, tagHash 16),
   (headerHashKey 17, tagHash 17), (headerHashKey 18, tagHash 18),
   (headerHashKey 19, tagHash 19)]

/-- A live store with two fork headers at height 5, a neighbour at each
bound, a canonical suffix entry and an entry beyond the upper bound. -/
def forkStore : KVStore :=
  [(headerKey 5 hashX, [1]), (headerKey 4 (tagHash 4), [1]),
   (headerHashKey 5, hashW), (headerKey 5 hashW, [1]),
   (headerKey 6 (tagHash 6), [1])]

/-! ## Theorems -/

/-! ### Helper lemmas about the two-tier read path -/

theorem readBodyRLP_eq_threeProbes (s1 s2 s3 : DBState) (hash : Bytes)
    (number : Nat) :
    ReadBodyRLP s1 s2 s3 hash number =
      threeProbes (ancientProbe s1 .bodies hash number)
        (liveProbe s2 (blockBodyKey number hash))
        (ancientProbe s3 .bodies hash number) := by
  unfold ReadBodyRLP ancientProbe liveProbe threeProbes
  dsimp only
  split_ifs <;> rfl

theorem readTdRLP_eq_threeProbes (s1 s2 s3 : DBState) (hash : Bytes)
    (number : Nat) :
    ReadTdRLP s1 s2 s3 hash number =
      threeProbes (ancientProbe s1 .diffs hash number)
        (liveProbe s2 (headerTDKey number hash))
        (ancientProbe s3 .diffs hash number) := by
  unfold ReadTdRLP ancientProbe liveProbe threeProbes
  dsimp only
  split_ifs <;> rfl

theorem readReceiptsRLP_eq_threeProbes (s1 s2 s3 : DBState) (hash : Bytes)
    (number : Nat) :
    ReadReceiptsRLP s1 s2 s3 hash number =
      threeProbes (ancientProbe s1 .receipts hash number)
        (liveProbe s2 (blockReceiptsKey number hash))
        (ancientProbe s3 .receipts hash number) := by
  unfold ReadReceiptsRLP ancientProbe liveProbe threeProbes
  dsimp only
  split_ifs <;> rfl

theorem threeProbes_eq_none (p1 p2 p3 : Option Bytes) :
    threeProbes p1 p2 p3 = none ↔ p1 = none ∧ p2 = none ∧ p3 = none := by
  unfold threeProbes
  cases p1 <;> cases p2 <;> simp

/-- C1: for every read of a body, receipt-list or total-difficulty record
by `(hash, number)`, the accessor is the left-biased composition of the
three probe steps — ancient (with the canonical-hash comparison), live,
ancient again — so it returns `none` exactly when all three probes miss,
and a record that any one of the three probes can see — in particular a
record present in one of the two tiers throughout the call, since the
migrator only moves records from the live tier to the ancient one — is
always returned. -/
theorem readRLP_three_probe_order :
    ∀ s1 s2 s3 hash number,
      (ReadBodyRLP s1 s2 s3 hash number =
        threeProbes (ancientProbe s1 .bodies hash number)
          (liveProbe s2 (blockBodyKey number hash))
          (ancientProbe s3 .bodies hash number)) ∧
      (ReadReceiptsRLP s1 s2 s3 hash number =
        threeProbes (ancientProbe s1 .receipts hash number)
          (liveProbe s2 (blockReceiptsKey number hash))
          (ancientProbe s3 .receipts hash number)) ∧
      (ReadTdRLP s1 s2 s3 hash number =
        threeProbes (ancientProbe s1 .diffs hash number)
          (liveProbe s2 (headerTDKey number hash))
          (ancientProbe s3 .diffs hash number)) ∧
      (ReadBodyRLP s1 s2 s3 hash number = none ↔
        ancientProbe s1 .bodies hash number = none ∧
        liveProbe s2 (blockBodyKey number hash) = none ∧
        ancientProbe s3 .bodies hash number = none) ∧
      (ReadReceiptsRLP s1 s2 s3 hash number = none ↔
        ancientProbe s1 .receipts hash number = none ∧
        liveProbe s2 (blockReceiptsKey number hash) = none ∧
        ancientProbe s3 .receipts hash number = none) ∧
      (ReadTdRLP s1 s2 s3 hash number = none ↔
        ancientProbe s1 .diffs hash number = none ∧
        liveProbe s2 (headerTDKey number hash) = none ∧
        ancientProbe s3 .diffs hash number = none) ∧
      ((ancientProbe s1 .bodies hash number ≠ none ∨
          liveProbe s2 (blockBodyKey number hash) ≠ none ∨
          ancientProbe s3 .bodies hash number ≠ none) →
        ReadBodyRLP s1 s2 s3 hash number ≠ none) ∧
      ((ancientProbe s1 .receipts hash number ≠ none ∨
          liveProbe s2 (blockReceiptsKey number hash) ≠ none ∨
          ancientProbe s3 .receipts hash number ≠ none) →
        ReadReceiptsRLP s1 s2 s3 hash number ≠ none) ∧
      ((ancientProbe s1 .diffs hash number ≠ none ∨
          liveProbe s2 (headerTDKey number hash) ≠ none ∨
          ancientProbe s3 .diffs hash number ≠ none) →
        ReadTdRLP s1 s2 s3 hash number ≠ none) := by
  intro s1 s2 s3 hash number
  have hb := readBodyRLP_eq_threeProbes s1 s2 s3 hash number
  have hr := readReceiptsRLP_eq_threeProbes s1 s2 s3 hash number
  have ht := readTdRLP_eq_threeProbes s1 s2 s3 hash number
  have nb : ReadBodyRLP s1 s2 s3 hash number = none ↔
      ancientProbe s1 .bodies hash number = none ∧
      liveProbe s2 (blockBodyKey number hash) = none ∧
      ancientProbe s3 .bodies hash number = none := by
    rw [hb]; exact threeProbes_eq_none _ _ _
  have nr : ReadReceiptsRLP s1 s2 s3 hash number = none ↔
      ancientProbe s1 .receipts hash number = none ∧
      liveProbe s2 (blockReceiptsKey number hash) = none ∧
      ancientProbe s3 .receipts hash number = none := by
    rw [hr]; exact threeProbes_eq_none _ _ _
  have nt : ReadTdRLP s1 s2 s3 hash number = none ↔
      ancientProbe s1 .diffs hash number = none ∧
      liveProbe s2 (headerTDKey number hash) = none ∧
      ancientProbe s3 .diffs hash number = none := by
    rw [ht]; exact threeProbes_eq_none _ _ _
  refine ⟨hb, hr, ht, nb, nr, nt, ?_, ?_, ?_⟩
  · intro hcase hnone
    rcases nb.mp hnone with ⟨e1, e2, e3⟩
    rcases hcase with h | h | h <;> contradiction
  · intro hcase hnone
    rcases nr.mp hnone with ⟨e1, e2, e3⟩
    rcases hcase with h | h | h <;> contradiction
  · intro hcase hnone
    rcases nt.mp hnone with ⟨e1, e2, e3⟩
    rcases hcase with h | h | h <;> contradiction

/-- Witness for C1: a body written in the live tier and migrated to the
ancient tier between the live probe and the final ancient probe is still
found. -/
theorem readRLP_three_probe_order_witness :
    ReadBodyRLP dbLive dbFrozen dbFrozen hashW 7 ≠ none :=
  (readRLP_three_probe_order dbLive dbFrozen dbFrozen hashW 7).2.2.2.2.2.2.1
    (Or.inr (Or.inr (by decide)))

/-! ### C2: the existence checks make only two probes -/

/-- C2 (amended): `HasHeader`, `HasBody` and `HasReceipts` are the
two-step check — ancient canonical-hash comparison, then a live-store
`Has` — with no repeated ancient probe. -/
theorem hasAccessors_two_probes :
    ∀ s1 s2 hash number,
      HasHeader s1 s2 hash number =
        (ancientHashMatch s1 number hash ||
          hasKey s2 (headerKey number hash)) ∧
      HasBody s1 s2 hash number =
        (ancientHashMatch s1 number hash ||
          hasKey s2 (blockBodyKey number hash)) ∧
      HasReceipts s1 s2 hash number =
        (ancientHashMatch s1 number hash ||
          hasKey s2 (blockReceiptsKey number hash)) := by
  intro s1 s2 hash number
  unfold HasHeader HasBody HasReceipts ancientHashMatch
  cases hm : s1.ancient .hashes number with
  | none => simp
  | some b =>
    by_cases hb : bytesToHash b = hash <;> simp [hb]

/-- Counterexample for C2: block 7's body exists throughout — in the live
tier at the first probe's snapshot and in the ancient tier at the second
probe's snapshot — yet `HasBody` answers `false`, because unlike the
reads it never repeats the ancient probe; the read path does find the
record on the same snapshots. -/
theorem hasBody_mid_migration_counterexample :
    HasBody dbLive dbFrozen hashW 7 = false ∧
    liveProbe dbLive (blockBodyKey 7 hashW) = some bodyBytesW ∧
    ancientProbe dbFrozen .bodies hashW 7 = some bodyBytesW ∧
    ReadBodyRLP dbLive dbFrozen dbFrozen hashW 7 = some bodyBytesW := by
  decide

/-! ### C10: the header read path performs no hash verification -/

/-- C10: whenever the ancient header table holds data at `number`,
`ReadHeaderRLP` returns that data for every requested hash (no
canonical-hash comparison on the ancient probes), and `ReadHeader`
consequently returns the decoded canonical header rather than absent. -/
theorem readHeaderRLP_no_hash_check :
    ∀ s1 s2 s3 hash hash2 number decodeHeader,
      0 < (ancientData s1 .headers number).length →
      ReadHeaderRLP s1 s2 s3 hash number =
          some (ancientData s1 .headers number) ∧
        ReadHeaderRLP s1 s2 s3 hash2 number =
          ReadHeaderRLP s1 s2 s3 hash number ∧
        ReadHeader decodeHeader s1 s2 s3 hash number =
          decodeHeader (ancientData s1 .headers number) := by
  intro s1 s2 s3 hash hash2 number decodeHeader h
  have e1 : ReadHeaderRLP s1 s2 s3 hash number =
      some (ancientData s1 .headers number) := by
    unfold ReadHeaderRLP
    simp [h]
  have e2 : ReadHeaderRLP s1 s2 s3 hash2 number =
      some (ancientData s1 .headers number) := by
    unfold ReadHeaderRLP
    simp [h]
  refine ⟨e1, e2.trans e1.symm, ?_⟩
  unfold ReadHeader
  rw [e1]
  simp only [Option.getD_some]
  rw [if_neg (by omega)]

/-- Witness for C10: requesting block 7 under the non-canonical hash
`hashX` still returns the canonical header, whose hash is `hashW ≠
hashX`. -/
theorem readHeaderRLP_no_hash_check_witness :
    ReadHeaderRLP dbFrozenHdr dbFrozenHdr dbFrozenHdr hashX 7 =
        some headerBytesW ∧
      ReadHeader decodeHeaderW dbFrozenHdr dbFrozenHdr dbFrozenHdr hashX 7 =
        some headerW ∧
      headerW.hash ≠ hashX := by
  have h := readHeaderRLP_no_hash_check dbFrozenHdr dbFrozenHdr dbFrozenHdr
    hashX hashW 7 decodeHeaderW (by decide)
  exact ⟨h.1, h.2.2.trans (by decide), by decide⟩

/-! ### C9: decode failures collapse to absence -/

theorem readHeaderRLP_some_nonempty {s1 s2 s3 : DBState} {hash : Bytes}
    {number : Nat} {d : Bytes}
    (h : ReadHeaderRLP s1 s2 s3 hash number = some d) : 0 < d.length := by
  unfold ReadHeaderRLP at h
  dsimp only at h
  split_ifs at h with h1 h2 h3
  · cases h; exact h1
  · cases h; exact h2
  · cases h; exact h3

theorem readBodyRLP_some_nonempty {s1 s2 s3 : DBState} {hash : Bytes}
    {number : Nat} {d : Bytes}
    (h : ReadBodyRLP s1 s2 s3 hash number = some d) : 0 < d.length := by
  unfold ReadBodyRLP at h
  dsimp only at h
  split_ifs at h with h1 h2 h3
  · cases h; exact h1.1
  · cases h; exact h2
  · cases h; exact h3.1

theorem readReceiptsRLP_some_nonempty {s1 s2 s3 : DBState} {hash : Bytes}
    {number : Nat} {d : Bytes}
    (h : ReadReceiptsRLP s1 s2 s3 hash number = some d) : 0 < d.length := by
  unfold ReadReceiptsRLP at h
  dsimp only at h
  split_ifs at h with h1 h2 h3
  · cases h; exact h1.1
  · cases h; exact h2
  · cases h; exact h3.1

theorem readTdRLP_some_nonempty {s1 s2 s3 : DBState} {hash : Bytes}
    {number : Nat} {d : Bytes}
    (h : ReadTdRLP s1 s2 s3 hash number = some d) : 0 < d.length := by
  unfold ReadTdRLP at h
  dsimp only at h
  split_ifs at h with h1 h2 h3
  · cases h; exact h1.1
  · cases h; exact h2
  · cases h; exact h3.1

/-- C9: for every decoded read accessor, stored bytes that fail to decode
produce exactly the result of a key that was never stored — `none`, the
same value the accessor returns over the empty store — and never an error
value (the return type has no error channel). -/
theorem decode_failure_is_absence :
    ∀ (decodeHeader : Bytes → Option Header) (decodeBody : Bytes → Option Body)
      (decodeReceipts : Bytes → Option (List Receipt))
      (decodeTd : Bytes → Option Nat) (s1 s2 s3 : DBState) (hash : Bytes)
      (number : Nat),
      ((∀ d, ReadHeaderRLP s1 s2 s3 hash number = some d →
          decodeHeader d = none →
          ReadHeader decodeHeader s1 s2 s3 hash number = none) ∧
        ReadHeader decodeHeader emptyDB emptyDB emptyDB hash number = none) ∧
      ((∀ d, ReadBodyRLP s1 s2 s3 hash number = some d →
          decodeBody d = none →
          ReadBody decodeBody s1 s2 s3 hash number = none) ∧
        ReadBody decodeBody emptyDB emptyDB emptyDB hash number = none) ∧
      ((∀ d, ReadReceiptsRLP s1 s2 s3 hash number = some d →
          decodeReceipts d = none →
          ReadRawReceipts decodeReceipts s1 s2 s3 hash number = none) ∧
        ReadRawReceipts decodeReceipts emptyDB emptyDB emptyDB hash number =
          none) ∧
      ((∀ d, ReadTdRLP s1 s2 s3 hash number = some d → decodeTd d = none →
          ReadTd decodeTd s1 s2 s3 hash number = none) ∧
        ReadTd decodeTd emptyDB emptyDB emptyDB hash number = none) := by
  intro decodeHeader decodeBody decodeReceipts decodeTd s1 s2 s3 hash number
  refine ⟨⟨?_, ?_⟩, ⟨?_, ?_⟩, ⟨?_, ?_⟩, ⟨?_, ?_⟩⟩
  · intro d hd hdec
    unfold ReadHeader
    rw [hd]
    simp only [Option.getD_some]
    rw [if_neg (by have := readHeaderRLP_some_nonempty hd; omega)]
    exact hdec
  · rfl
  · intro d hd hdec
    unfold ReadBody
    rw [hd]
    simp only [Option.getD_some]
    rw [if_neg (by have := readBodyRLP_some_nonempty hd; omega)]
    exact hdec
  · rfl
  · intro d hd hdec
    unfold ReadRawReceipts
    rw [hd]
    simp only [Option.getD_some]
    rw [if_neg (by have := readReceiptsRLP_some_nonempty hd; omega)]
    exact hdec
  · rfl
  · intro d hd hdec
    unfold ReadTd
    rw [hd]
    simp only [Option.getD_some]
    rw [if_neg (by have := readTdRLP_some_nonempty hd; omega)]
    exact hdec
  · rfl

/-- Witness for C9: corrupt header bytes for block 7 read as `none`. -/
theorem decode_failure_is_absence_witness :
    ReadHeader decodeHeaderNone dbFrozenHdr dbFrozenHdr dbFrozenHdr hashW 7 =
      none :=
  (decode_failure_is_absence decodeHeaderNone decodeBodyNone
    decodeReceiptsNone decodeTdNone dbFrozenHdr dbFrozenHdr dbFrozenHdr hashW
    7).1.1 headerBytesW (by decide) rfl

/-! ### C3: log-field derivation -/

theorem sumLens_nil : sumLens [] = 0 := rfl

theorem sumLens_cons (r : List Log) (rs : List (List Log)) :
    sumLens (r :: rs) = r.length + sumLens rs := by
  simp [sumLens]

theorem deriveReceiptLogs_length (hash : Bytes) (number : Nat)
    (txHash : Bytes) (txIndex : Nat) :
    ∀ (logs : List Log) (logIndex : Nat),
      (deriveReceiptLogs logs hash number txHash txIndex logIndex).length =
        logs.length := by
  intro logs
  induction logs with
  | nil => intro li; rfl
  | cons l ls ih =>
    intro li
    simp [deriveReceiptLogs, ih (li + 1)]

theorem deriveReceiptLogs_getD (hash : Bytes) (number : Nat)
    (txHash : Bytes) (txIndex : Nat) :
    ∀ (logs : List Log) (logIndex j : Nat), j < logs.length →
      (deriveReceiptLogs logs hash number txHash txIndex logIndex).getD j
          defLog =
        { logs.getD j defLog with
          blockNumber := number, blockHash := hash, txHash := txHash,
          txIndex := txIndex, index := logIndex + j } := by
  intro logs
  induction logs with
  | nil => intro li j hj; simp at hj
  | cons l ls ih =>
    intro li j hj
    cases j with
    | zero => simp [deriveReceiptLogs]
    | succ j =>
      simp only [deriveReceiptLogs, List.getD_cons_succ]
      rw [ih (li + 1) j (by simpa using hj)]
      have e : li + 1 + j = li + (j + 1) := by omega
      rw [e]

theorem deriveReceiptLogs_map_index (hash : Bytes) (number : Nat)
    (txHash : Bytes) (txIndex : Nat) :
    ∀ (logs : List Log) (logIndex : Nat),
      (deriveReceiptLogs logs hash number txHash txIndex logIndex).map
          Log.index =
        List.range' logIndex logs.length := by
  intro logs
  induction logs with
  | nil => intro li; rfl
  | cons l ls ih =>
    intro li
    simp [deriveReceiptLogs, ih (li + 1), List.range'_succ]

theorem deriveAllLogs_length (hash : Bytes) (number : Nat) :
    ∀ (receipts : List (List Log)) (txs : List Transaction)
      (txIndex logIndex : Nat),
      (deriveAllLogs receipts txs hash number txIndex logIndex).length =
        receipts.length := by
  intro receipts
  induction receipts with
  | nil => intro txs ti li; cases txs <;> rfl
  | cons r rs ih =>
    intro txs ti li
    cases txs with
    | nil => simp [deriveAllLogs, ih]
    | cons t ts => simp [deriveAllLogs, ih]

theorem deriveAllLogs_getD (hash : Bytes) (number : Nat) :
    ∀ (receipts : List (List Log)) (txs : List Transaction)
      (txIndex logIndex i : Nat), i < receipts.length →
      (deriveAllLogs receipts txs hash number txIndex logIndex).getD i [] =
        deriveReceiptLogs (receipts.getD i []) hash number
          (if i < txs.length then (txs.getD i defTx).hash else hash)
          (txIndex + i) (logIndex + sumLens (receipts.take i)) := by
  intro receipts
  induction receipts with
  | nil => intro txs ti li i hi; simp at hi
  | cons r rs ih =>
    intro txs ti li i hi
    cases txs with
    | nil =>
      cases i with
      | zero => simp [deriveAllLogs, sumLens]
      | succ i =>
        simp only [deriveAllLogs, List.getD_cons_succ]
        rw [ih [] (ti + 1) (li + r.length) i (by simpa using hi)]
        simp only [List.length_nil, List.take_succ_cons, sumLens_cons]
        congr 1 <;> omega
    | cons t ts =>
      cases i with
      | zero => simp [deriveAllLogs, sumLens]
      | succ i =>
        simp only [deriveAllLogs, List.getD_cons_succ]
        rw [ih ts (ti + 1) (li + r.length) i (by simpa using hi)]
        simp only [List.length_cons, List.take_succ_cons, sumLens_cons,
          Nat.add_lt_add_iff_right]
        congr 1 <;> omega

theorem deriveAllLogs_join_index (hash : Bytes) (number : Nat) :
    ∀ (receipts : List (List Log)) (txs : List Transaction)
      (txIndex logIndex : Nat),
      ((deriveAllLogs receipts txs hash number txIndex logIndex).flatten.map
          Log.index) =
        List.range' logIndex (sumLens receipts) := by
  intro receipts
  induction receipts with
  | nil => intro txs ti li; cases txs <;> simp [deriveAllLogs, sumLens]
  | cons r rs ih =>
    intro txs ti li
    have key : ∀ (txh : Bytes) (tl : List Transaction),
        ((deriveReceiptLogs r hash number txh ti li ::
            deriveAllLogs rs tl hash number (ti + 1) (li + r.length)).flatten.map
          Log.index) = List.range' li (sumLens (r :: rs)) := by
      intro txh tl
      rw [List.flatten_cons, List.map_append, deriveReceiptLogs_map_index,
        ih tl (ti + 1) (li + r.length), sumLens_cons]
      have happ := List.range'_append li r.length (sumLens rs) 1
      simp only [Nat.one_mul] at happ
      exact happ.trans (by rw [Nat.add_comm])
    cases txs with
    | nil => exact key hash []
    | cons t ts => exact key t.hash ts

/-- C3: `deriveLogFields` succeeds exactly when the stored receipt count
equals the transaction count or exceeds it by one; on success every log of
every receipt, in transaction order, carries the block number, the block
hash, the enclosing transaction's hash and index — the extra finalization
receipt being attributed to the block hash itself at index `len(txs)` —
and a log index that is strictly increasing and contiguous from 0 across
the block; any other count yields the error "transaction and receipt count
mismatch", on which `ReadLogs` returns absent rather than a partial
result. -/
theorem deriveLogFields_spec :
    ∀ (receipts : List (List Log)) (hash : Bytes) (number : Nat)
      (txs : List Transaction),
      ((deriveLogFields receipts hash number txs).isOk = true ↔
        (receipts.length = txs.length ∨
          receipts.length = txs.length + 1)) ∧
      (¬(receipts.length = txs.length ∨ receipts.length = txs.length + 1) →
        deriveLogFields receipts hash number txs =
          .error "transaction and receipt count mismatch") ∧
      (∀ out, deriveLogFields receipts hash number txs = .ok out →
        out.length = receipts.length ∧
        (∀ i, i < receipts.length →
          (out.getD i []).length = (receipts.getD i []).length) ∧
        (∀ i j, i < receipts.length → j < (receipts.getD i []).length →
          ((out.getD i []).getD j defLog).content =
              ((receipts.getD i []).getD j defLog).content ∧
            ((out.getD i []).getD j defLog).blockNumber = number ∧
            ((out.getD i []).getD j defLog).blockHash = hash ∧
            ((out.getD i []).getD j defLog).txIndex = i ∧
            ((out.getD i []).getD j defLog).txHash =
              (if i < txs.length then (txs.getD i defTx).hash else hash) ∧
            ((out.getD i []).getD j defLog).index =
              sumLens (receipts.take i) + j) ∧
        out.flatten.map Log.index = List.range (sumLens receipts)) ∧
      (∀ decodeReceiptLogs decodeBody s1 s2 s3 data body,
        ReadReceiptsRLP s1 s2 s3 hash number = some data →
        decodeReceiptLogs data = some receipts →
        ReadBody decodeBody s1 s2 s3 hash number = some body →
        body.transactions = txs →
        ¬(receipts.length = txs.length ∨
          receipts.length = txs.length + 1) →
        ReadLogs decodeReceiptLogs decodeBody s1 s2 s3 hash number =
          none) := by
  intro receipts hash number txs
  by_cases hc : txs.length = receipts.length ∨
      txs.length + 1 = receipts.length
  · have hok : deriveLogFields receipts hash number txs =
        .ok (deriveAllLogs receipts txs hash number 0 0) := by
      unfold deriveLogFields
      rw [if_neg (by tauto)]
    refine ⟨?_, ?_, ?_, ?_⟩
    · rw [hok]
      simp only [Except.isOk]
      constructor
      · intro _
        exact hc.elim (fun h => Or.inl h.symm) (fun h => Or.inr h.symm)
      · intro _; rfl
    · intro hn
      exact absurd (hc.elim (fun h => Or.inl h.symm) (fun h => Or.inr h.symm))
        hn
    · intro out hout
      rw [hok] at hout
      cases hout
      refine ⟨deriveAllLogs_length hash number receipts txs 0 0, ?_, ?_, ?_⟩
      · intro i hi
        rw [deriveAllLogs_getD hash number receipts txs 0 0 i hi,
          deriveReceiptLogs_length]
      · intro i j hi hj
        rw [deriveAllLogs_getD hash number receipts txs 0 0 i hi]
        rw [deriveReceiptLogs_getD hash number _ _ (receipts.getD i [])
          (0 + sumLens (receipts.take i)) j hj]
        refine ⟨rfl, rfl, rfl, ?_, rfl, ?_⟩ <;> simp
      · rw [deriveAllLogs_join_index hash number receipts txs 0 0,
          List.range_eq_range']
    · intro decodeReceiptLogs decodeBody s1 s2 s3 data body _ _ _ _ hn
      exact absurd (hc.elim (fun h => Or.inl h.symm) (fun h => Or.inr h.symm))
        hn
  · have herr : deriveLogFields receipts hash number txs =
        .error "transaction and receipt count mismatch" := by
      unfold deriveLogFields
      rw [if_pos (by tauto)]
    refine ⟨?_, fun _ => herr, ?_, ?_⟩
    · rw [herr]
      simp only [Except.isOk]
      constructor
      · intro h; cases h
      · intro h
        exact absurd
          (h.elim (fun e => Or.inl e.symm) (fun e => Or.inr e.symm)) hc
    · intro out hout
      rw [herr] at hout
      cases hout
    · intro decodeReceiptLogs decodeBody s1 s2 s3 data body hdata hdec hbody
        htxs _
      unfold ReadLogs
      rw [hdata]
      simp only [Option.getD_some]
      rw [if_neg (by have := readReceiptsRLP_some_nonempty hdata; omega)]
      rw [hdec]
      dsimp only
      rw [hbody]
      dsimp only
      rw [htxs, herr]

/-- Witness for C3: three stored receipts against one transaction is a
count mismatch. -/
theorem deriveLogFields_spec_witness :
    deriveLogFields [[defLog], [defLog], [defLog]] hashW 5 [defTx] =
      .error "transaction and receipt count mismatch" :=
  (deriveLogFields_spec [[defLog], [defLog], [defLog]] hashW 5 [defTx]).2.1
    (by decide)

/-! ### C4: the bad-block buffer -/

theorem insertBadBlockDesc_perm (e : badBlock) :
    ∀ l : List badBlock, (insertBadBlockDesc e l).Perm (e :: l) := by
  intro l
  induction l with
  | nil => simp [insertBadBlockDesc]
  | cons x xs ih =>
    unfold insertBadBlockDesc
    split_ifs
    · exact List.Perm.refl _
    · exact (List.Perm.cons x ih).trans (List.Perm.swap e x xs)

theorem sortBadBlocksDesc_perm :
    ∀ l : List badBlock, (sortBadBlocksDesc l).Perm l := by
  intro l
  induction l with
  | nil => exact List.Perm.refl _
  | cons x xs ih =>
    have : sortBadBlocksDesc (x :: xs) =
        insertBadBlockDesc x (sortBadBlocksDesc xs) := rfl
    rw [this]
    exact (insertBadBlockDesc_perm x (sortBadBlocksDesc xs)).trans
      (List.Perm.cons x ih)

theorem insertBadBlockDesc_sorted (e : badBlock) :
    ∀ l : List badBlock, badBlocksSortedDesc l →
      badBlocksSortedDesc (insertBadBlockDesc e l) := by
  intro l
  induction l with
  | nil => intro _; simp [insertBadBlockDesc, badBlocksSortedDesc]
  | cons x xs ih =>
    intro hs
    rw [badBlocksSortedDesc, List.pairwise_cons] at hs
    obtain ⟨hx, hxs⟩ := hs
    unfold insertBadBlockDesc
    split_ifs with hlt
    · rw [badBlocksSortedDesc, List.pairwise_cons]
      refine ⟨?_, ?_⟩
      · intro z hz
        rcases List.mem_cons.mp hz with rfl | hz2
        · omega
        · have := hx z hz2
          omega
      · exact List.Pairwise.cons hx hxs
    · rw [badBlocksSortedDesc, List.pairwise_cons]
      refine ⟨?_, ih hxs⟩
      intro z hz
      rcases List.mem_cons.mp ((insertBadBlockDesc_perm e xs).mem_iff.mp hz)
        with rfl | hz2
      · omega
      · exact hx z hz2

theorem sortBadBlocksDesc_sorted :
    ∀ l : List badBlock, badBlocksSortedDesc (sortBadBlocksDesc l) := by
  intro l
  induction l with
  | nil => simp [sortBadBlocksDesc, badBlocksSortedDesc]
  | cons x xs ih =>
    have : sortBadBlocksDesc (x :: xs) =
        insertBadBlockDesc x (sortBadBlocksDesc xs) := rfl
    rw [this]
    exact insertBadBlockDesc_sorted x _ ih

theorem badBlock_match_symmetric :
    Symmetric fun x y : badBlock =>
      ¬(x.header.number = y.header.number ∧
        x.header.hash = y.header.hash) := by
  intro x y h hcon
  exact h ⟨hcon.1.symm, hcon.2.symm⟩

/-- C4: `WriteBadBlock` is a no-op when the incoming block's
`(number, hash)` already appears in the stored list; otherwise it appends
the new entry, sorts descending by number, and truncates to the retention
bound 10 — and it preserves the invariant that the stored list has at most
10 entries, is sorted descending by number, and holds at most one entry
per `(number, hash)` pair. -/
theorem writeBadBlock_spec :
    ∀ (l : List badBlock) (b : Block),
      ((∃ e ∈ l, e.header.number = b.header.number ∧
          e.header.hash = b.header.hash) →
        WriteBadBlock l b = l) ∧
      (¬(∃ e ∈ l, e.header.number = b.header.number ∧
          e.header.hash = b.header.hash) →
        WriteBadBlock l b =
          (sortBadBlocksDesc
            (l ++ [{ header := b.header, body := b.body }])).take
            badBlockToKeep) ∧
      (badBlocksInv l → badBlocksInv (WriteBadBlock l b)) := by
  intro l b
  by_cases hdup : ∃ e ∈ l, e.header.number = b.header.number ∧
      e.header.hash = b.header.hash
  · have heq : WriteBadBlock l b = l := by
      unfold WriteBadBlock
      rw [if_pos]
      simp only [List.any_eq_true, Bool.and_eq_true, beq_iff_eq]
      obtain ⟨e, he, h1, h2⟩ := hdup
      exact ⟨e, he, h1, h2⟩
    refine ⟨fun _ => heq, fun hn => absurd hdup hn, fun hInv => ?_⟩
    rw [heq]
    exact hInv
  · have heq : WriteBadBlock l b =
        (sortBadBlocksDesc
          (l ++ [{ header := b.header, body := b.body }])).take
          badBlockToKeep := by
      unfold WriteBadBlock
      rw [if_neg]
      simp only [List.any_eq_true, Bool.and_eq_true, beq_iff_eq]
      exact hdup
    refine ⟨fun hex => absurd hex hdup, fun _ => heq, ?_⟩
    intro hInv
    rw [heq]
    refine ⟨?_, ?_, ?_⟩
    · rw [List.length_take]
      omega
    · exact List.Pairwise.sublist (List.take_sublist _ _)
        (sortBadBlocksDesc_sorted _)
    · have hperm := sortBadBlocksDesc_perm
        (l ++ [{ header := b.header, body := b.body }])
      have happ : badBlocksNoDup
          (l ++ [({ header := b.header, body := b.body } : badBlock)]) := by
        rw [badBlocksNoDup, List.pairwise_append]
        refine ⟨hInv.2.2, List.pairwise_singleton _ _, ?_⟩
        intro e he e2 he2 hcon
        rcases List.mem_singleton.mp he2
        exact hdup ⟨e, he, hcon.1, hcon.2⟩
      have := (List.Perm.pairwise_iff
        (fun h => badBlock_match_symmetric h) hperm).mpr happ
      exact List.Pairwise.sublist (List.take_sublist _ _) this

/-- Witness for C4: recording a first bad block stores it; re-recording
the same `(number, hash)` is a no-op. -/
theorem writeBadBlock_spec_witness :
    WriteBadBlock [] blockW =
        [{ header := blockW.header, body := blockW.body }] ∧
      WriteBadBlock [{ header := blockW.header, body := blockW.body }]
          blockW =
        [{ header := blockW.header, body := blockW.body }] := by
  refine ⟨((writeBadBlock_spec [] blockW).2.1 (by simp)).trans (by decide),
    (writeBadBlock_spec [{ header := blockW.header, body := blockW.body }]
      blockW).1 ?_⟩
  exact ⟨_, List.mem_singleton_self _, rfl, rfl⟩

/-! ### C5: the ancient batch commit -/

theorem writeAncientBlock_aligned (op : AncientStore) (b : Block)
    (receipts : List Receipt) (td : Nat) (L : Nat)
    (hh : op.hashesT.length = L) (hhd : op.headersT.length = L)
    (hb : op.bodiesT.length = L) (hr : op.receiptsT.length = L)
    (hd : op.diffsT.length = L) (hn : b.header.number = op.first + L) :
    writeAncientBlock op b b.header receipts td =
      some { first := op.first,
             hashesT := op.hashesT ++ [b.header.hash],
             headersT := op.headersT ++ [b.header],
             bodiesT := op.bodiesT ++ [b.body],
             receiptsT := op.receiptsT ++ [receipts],
             diffsT := op.diffsT ++ [td] } := by
  unfold writeAncientBlock appendHashT appendHeaderT appendBodyT
    appendReceiptsT appendDiffT
  dsimp only
  rw [if_pos (show b.header.number = op.first + op.hashesT.length by
    rw [hh, hn])]
  dsimp only
  rw [if_pos (by rw [hhd, hn])]
  dsimp only
  rw [if_pos (by rw [hb, hn])]
  dsimp only
  rw [if_pos (by rw [hr, hn])]
  dsimp only
  rw [if_pos (by rw [hd, hn])]

theorem map_fst_comp_zip {α β γ : Type _} (f : α → γ) :
    ∀ (l1 : List α) (l2 : List β), l1.length ≤ l2.length →
      (l1.zip l2).map (fun p => f p.1) = l1.map f := by
  intro l1
  induction l1 with
  | nil => intro l2 h; simp
  | cons x xs ih =>
    intro l2 h
    cases l2 with
    | nil => simp at h
    | cons y ys =>
      simp [ih ys (by simpa using h)]

theorem writeAncientBlocksLoop_spec :
    ∀ (pairs : List (Block × List Receipt)) (op : AncientStore)
      (tdSum i L : Nat),
      op.hashesT.length = L → op.headersT.length = L →
      op.bodiesT.length = L → op.receiptsT.length = L →
      op.diffsT.length = L → 0 < i →
      (∀ k, (hk : k < pairs.length) →
        pairs[k].1.header.number = op.first + L + k) →
      writeAncientBlocksLoop op pairs tdSum i =
        some { first := op.first,
               hashesT := op.hashesT ++
                 pairs.map fun p => p.1.header.hash,
               headersT := op.headersT ++ pairs.map fun p => p.1.header,
               bodiesT := op.bodiesT ++ pairs.map fun p => p.1.body,
               receiptsT := op.receiptsT ++ pairs.map Prod.snd,
               diffsT := op.diffsT ++
                 runningTdAux tdSum (pairs.map Prod.fst) } := by
  intro pairs
  induction pairs with
  | nil =>
    intro op tdSum i L h1 h2 h3 h4 h5 hi hnum
    obtain ⟨f, l1, l2, l3, l4, l5⟩ := op
    simp [writeAncientBlocksLoop, runningTdAux]
  | cons p rest ih =>
    intro op tdSum i L h1 h2 h3 h4 h5 hi hnum
    obtain ⟨b, rs⟩ := p
    unfold writeAncientBlocksLoop
    rw [if_pos hi]
    dsimp only
    rw [writeAncientBlock_aligned op b rs (tdSum + b.totalDifficulty) L h1 h2
      h3 h4 h5 (by simpa using hnum 0 (by simp))]
    dsimp only
    rw [ih _ (tdSum + b.totalDifficulty) (i + 1) (L + 1)
      (by simp [h1]) (by simp [h2]) (by simp [h3]) (by simp [h4])
      (by simp [h5]) (by omega) ?_]
    · simp [runningTdAux]
    · intro k hk
      have h6 := hnum (k + 1) (by simpa using Nat.succ_lt_succ hk)
      simp only [List.getElem_cons_succ] at h6
      dsimp only
      omega

/-- C5: `WriteAncientBlocks` on a batch of consecutively numbered blocks
appends, block by block, the block hash, header, body, receipt list and
running total difficulty to the five parallel ancient tables — the first
block's stored total difficulty is the given `td` with nothing added, and
each later block adds its own value to the running sum — advancing to the
next block only after all of block `i`'s appends; a failing per-block
append (here: a block violating the freezer's contiguity rule) aborts the
whole batch with no new store state. -/
theorem writeAncientBlocks_spec :
    (∀ (op : AncientStore) (blocks : List Block)
      (receipts : List (List Receipt)) (td : Nat) (L : Nat),
      blocks.length = receipts.length →
      op.hashesT.length = L → op.headersT.length = L →
      op.bodiesT.length = L → op.receiptsT.length = L →
      op.diffsT.length = L →
      (∀ k, (hk : k < blocks.length) →
        blocks[k].header.number = op.first + L + k) →
      WriteAncientBlocks op blocks receipts td =
        some { first := op.first,
               hashesT := op.hashesT ++
                 blocks.map fun b => b.header.hash,
               headersT := op.headersT ++ blocks.map fun b => b.header,
               bodiesT := op.bodiesT ++ blocks.map fun b => b.body,
               receiptsT := op.receiptsT ++ receipts,
               diffsT := op.diffsT ++ runningTd td blocks }) ∧
      WriteAncientBlocks ancientW [blockA0, blockBad] [[], []] 5 = none := by
  constructor
  · intro op blocks receipts td L hlen h1 h2 h3 h4 h5 hnum
    unfold WriteAncientBlocks
    cases blocks with
    | nil =>
      cases receipts with
      | nil =>
        obtain ⟨f, l1, l2, l3, l4, l5⟩ := op
        simp [writeAncientBlocksLoop, runningTd]
      | cons r rs => simp at hlen
    | cons b bs =>
      cases receipts with
      | nil => simp at hlen
      | cons r rs =>
        simp only [List.zip_cons_cons]
        unfold writeAncientBlocksLoop
        rw [if_neg (by omega)]
        dsimp only
        rw [writeAncientBlock_aligned op b r td L h1 h2 h3 h4 h5
          (by simpa using hnum 0 (by simp))]
        dsimp only
        rw [writeAncientBlocksLoop_spec (bs.zip rs) _ td 1 (L + 1)
          (by simp [h1]) (by simp [h2]) (by simp [h3]) (by simp [h4])
          (by simp [h5]) (by omega) ?_]
        · have hlen2 : bs.length = rs.length := by
            simp only [List.length_cons] at hlen
            omega
          have hsnd := List.map_snd_zip bs rs (le_of_eq hlen2.symm)
          have hfst := List.map_fst_zip bs rs (le_of_eq hlen2)
          simp [runningTd, hsnd, hfst,
            map_fst_comp_zip (fun b : Block => b.header.hash) bs rs
              (le_of_eq hlen2),
            map_fst_comp_zip (fun b : Block => b.header) bs rs
              (le_of_eq hlen2),
            map_fst_comp_zip (fun b : Block => b.body) bs rs
              (le_of_eq hlen2)]
        · intro k hk
          have hk2 : k < bs.length := by
            simp [List.length_zip] at hk
            omega
          have h6 := hnum (k + 1) (by simpa using Nat.succ_lt_succ hk2)
          simp only [List.getElem_cons_succ] at h6
          rw [List.getElem_zip]
          dsimp only
          omega
  · decide

/-- Witness for C5: freezing two consecutive blocks from an empty ancient
store stores hash/header/body/receipts per block and total difficulties
`5` and `5 + 4`. -/
theorem writeAncientBlocks_spec_witness :
    WriteAncientBlocks ancientW [blockA0, blockA1] [[], []] 5 =
      some { first := 0,
             hashesT := [hashW, hashX],
             headersT := [blockA0.header, blockA1.header],
             bodiesT := [blockA0.body, blockA1.body],
             receiptsT := [[], []],
             diffsT := [5, 9] } := by
  have h := writeAncientBlocks_spec.1 ancientW [blockA0, blockA1] [[], []] 5 0
    (by decide) (by decide) (by decide) (by decide) (by decide) (by decide)
    (by decide)
  exact h.trans (by decide)

/-! ### C8: the common-ancestor walker -/

theorem fcaDescend_noStep (hdb : Bytes → Nat → Option Header) (bn : Nat)
    (fuel : Nat) (a : Header) (h : ¬bn < a.number) :
    fcaDescend hdb bn fuel a = some a := by
  cases fuel <;> simp [fcaDescend, h]

theorem fcaDescend_reaches (hdb : Bytes → Nat → Option Header)
    (A : Nat → Header) (na : Nat)
    (hA : ∀ h, h ≤ na → (A h).number = h)
    (sA : ∀ h, h < na → hdb (A (h + 1)).parentHash h = some (A h)) :
    ∀ (fuel n bn : Nat), bn ≤ n → n ≤ na → n - bn ≤ fuel →
      fcaDescend hdb bn fuel (A n) = some (A bn) := by
  intro fuel
  induction fuel with
  | zero =>
    intro n bn h1 h2 h3
    have he : n = bn := by omega
    subst he
    exact fcaDescend_noStep _ _ _ _ (by rw [hA n h2]; omega)
  | succ fuel ih =>
    intro n bn h1 h2 h3
    by_cases he : n = bn
    · subst he
      exact fcaDescend_noStep _ _ _ _ (by rw [hA n h2]; omega)
    · unfold fcaDescend
      rw [if_pos (show bn < (A n).number by rw [hA n h2]; omega)]
      have hp : pred64 (A n).number = n - 1 := by
        rw [hA n h2]
        unfold pred64
        rw [if_neg (by omega)]
      rw [hp]
      have hs : hdb (A n).parentHash (n - 1) = some (A (n - 1)) := by
        have hstep := sA (n - 1) (by omega)
        rw [show n - 1 + 1 = n from by omega] at hstep
        exact hstep
      rw [hs]
      exact ih (n - 1) bn (by omega) (by omega) (by omega)

theorem fcaLockstep_reaches (hdb : Bytes → Nat → Option Header)
    (A B : Nat → Header) (na nb hstar : Nat)
    (hA : ∀ h, h ≤ na → (A h).number = h)
    (hB : ∀ h, h ≤ nb → (B h).number = h)
    (sA : ∀ h, h < na → hdb (A (h + 1)).parentHash h = some (A h))
    (sB : ∀ h, h < nb → hdb (B (h + 1)).parentHash h = some (B h))
    (heq : A hstar = B hstar)
    (hdiff : ∀ j, j ≤ na → j ≤ nb → hstar < j → (A j).hash ≠ (B j).hash) :
    ∀ (fuel n : Nat), hstar ≤ n → n ≤ na → n ≤ nb → n - hstar < fuel →
      fcaLockstep hdb fuel (A n) (B n) = some (A hstar) := by
  intro fuel
  induction fuel with
  | zero => intro n h1 h2 h3 h4; omega
  | succ fuel ih =>
    intro n h1 h2 h3 h4
    by_cases he : n = hstar
    · subst he
      unfold fcaLockstep
      rw [if_pos (by rw [heq])]
    · unfold fcaLockstep
      rw [if_neg (hdiff n h2 h3 (by omega))]
      have hpA : pred64 (A n).number = n - 1 := by
        rw [hA n h2]
        unfold pred64
        rw [if_neg (by omega)]
      have hpB : pred64 (B n).number = n - 1 := by
        rw [hB n h3]
        unfold pred64
        rw [if_neg (by omega)]
      rw [hpA, hpB]
      have hsA2 : hdb (A n).parentHash (n - 1) = some (A (n - 1)) := by
        have hstep := sA (n - 1) (by omega)
        rw [show n - 1 + 1 = n from by omega] at hstep
        exact hstep
      have hsB2 : hdb (B n).parentHash (n - 1) = some (B (n - 1)) := by
        have hstep := sB (n - 1) (by omega)
        rw [show n - 1 + 1 = n from by omega] at hstep
        exact hstep
      rw [hsA2]
      dsimp only
      rw [hsB2]
      dsimp only
      exact ih (n - 1) (by omega) (by omega) (by omega) (by omega)

/-- Counterexample for C8: with chains forking at height 2 and a stored
gap at height 0 — strictly below the fork point — `FindCommonAncestor`
still returns the ancestor at height 2: the walk never reads below the
highest common height, so a gap below the fork point does not make the
search return absent. -/
theorem findCommonAncestor_gap_below_fork_counterexample :
    FindCommonAncestor hdbGap (gapA 4) (gapB 3) = some (gapA 2) ∧
      hdbGap (gapA 1).parentHash 0 = none ∧
      (gapA 3).hash ≠ (gapB 3).hash ∧
      gapA 2 = gapB 2 := by decide

/-- C8 (amended): `FindCommonAncestor` walks the higher header down to
the lower one's height, then both in lockstep comparing hashes, and for
fully stored chains returns the ancestor at the highest common height; it
returns absent as soon as a parent lookup misses, so a gap inside the
walked range — at or above the highest common height, e.g. a missing
genesis segment when the chains share only the genesis — yields absent
(not an error), while a gap strictly below the common ancestor is never
read. -/
theorem findCommonAncestor_spec :
    (∀ (hdb : Bytes → Nat → Option Header) (A B : Nat → Header)
      (na nb hstar : Nat),
      (∀ h, h ≤ na → (A h).number = h) →
      (∀ h, h ≤ nb → (B h).number = h) →
      (∀ h, h < na → hdb (A (h + 1)).parentHash h = some (A h)) →
      (∀ h, h < nb → hdb (B (h + 1)).parentHash h = some (B h)) →
      hstar ≤ na → hstar ≤ nb →
      A hstar = B hstar →
      (∀ j, j ≤ na → j ≤ nb → hstar < j → (A j).hash ≠ (B j).hash) →
      FindCommonAncestor hdb (A na) (B nb) = some (A hstar)) ∧
    FindCommonAncestor hdbGen (genA 3) (genB 2) = none := by
  constructor
  · intro hdb A B na nb hstar hA hB sA sB h1 h2 heq hdiff
    unfold FindCommonAncestor
    rcases le_or_lt nb na with hcase | hcase
    · have hd1 : fcaDescend hdb (B nb).number (A na).number (A na) =
          some (A nb) := by
        rw [hB nb le_rfl, hA na le_rfl]
        exact fcaDescend_reaches hdb A na hA sA na na nb hcase le_rfl
          (by omega)
      rw [hd1]
      dsimp only
      have hd2 : fcaDescend hdb (A nb).number (B nb).number (B nb) =
          some (B nb) := by
        rw [hA nb hcase]
        exact fcaDescend_noStep hdb nb _ (B nb)
          (by rw [hB nb le_rfl]; omega)
      rw [hd2]
      dsimp only
      rw [hA nb hcase]
      exact fcaLockstep_reaches hdb A B na nb hstar hA hB sA sB heq hdiff
        (nb + 1) nb h2 hcase le_rfl (by omega)
    · have hd1 : fcaDescend hdb (B nb).number (A na).number (A na) =
          some (A na) :=
        fcaDescend_noStep _ _ _ _
          (by rw [hA na le_rfl, hB nb le_rfl]; omega)
      rw [hd1]
      dsimp only
      have hd2 : fcaDescend hdb (A na).number (B nb).number (B nb) =
          some (B na) := by
        rw [hA na le_rfl, hB nb le_rfl]
        exact fcaDescend_reaches hdb B nb hB sB nb nb na (by omega) le_rfl
          (by omega)
      rw [hd2]
      dsimp only
      rw [hA na le_rfl]
      exact fcaLockstep_reaches hdb A B na nb hstar hA hB sA sB heq hdiff
        (na + 1) na h1 le_rfl (by omega) (by omega)
  · decide

/-- Witness for C8: the spec's example — chain A of height 10 and chain B
of height 7 diverging above height 5 resolve to the height-5 header. -/
theorem findCommonAncestor_spec_witness :
    FindCommonAncestor hdbW (chainA 10) (chainB 7) = some (chainA 5) :=
  findCommonAncestor_spec.1 hdbW chainA chainB 10 7 5 (by decide) (by decide)
    (by decide) (by decide) (by decide) (by decide) (by decide) (by decide)

/-! ### Byte-order infrastructure for the range queries -/

theorem byteCompare_eq_iff : ∀ x y : Bytes, byteCompare x y = .eq ↔ x = y := by
  intro x
  induction x with
  | nil => intro y; cases y <;> simp [byteCompare]
  | cons a as ih =>
    intro y
    cases y with
    | nil => simp [byteCompare]
    | cons b bs =>
      simp only [byteCompare]
      split_ifs with h1 h2
      · constructor
        · intro h; cases h
        · intro h
          simp only [List.cons.injEq] at h
          omega
      · constructor
        · intro h; cases h
        · intro h
          simp only [List.cons.injEq] at h
          omega
      · have hab : a = b := by omega
        subst hab
        simp [ih bs]

theorem byteCompare_gt_iff_lt :
    ∀ x y : Bytes, byteCompare x y = .gt ↔ byteCompare y x = .lt := by
  intro x
  induction x with
  | nil => intro y; cases y <;> simp [byteCompare]
  | cons a as ih =>
    intro y
    cases y with
    | nil => simp [byteCompare]
    | cons b bs =>
      simp only [byteCompare]
      by_cases h1 : a < b
      · rw [if_pos h1, if_neg (by omega : ¬b < a), if_pos h1]
        simp
      · by_cases h2 : b < a
        · rw [if_neg h1, if_pos h2, if_pos h2]
          simp
        · rw [if_neg h1, if_neg h2, if_neg h2, if_neg h1]
          exact ih bs

theorem byteCompare_lt_trans :
    ∀ x y z : Bytes, byteCompare x y = .lt → byteCompare y z = .lt →
      byteCompare x z = .lt := by
  intro x
  induction x with
  | nil =>
    intro y z h1 h2
    cases y with
    | nil => cases h1
    | cons b bs =>
      cases z with
      | nil => cases h2
      | cons c cs => simp [byteCompare]
  | cons a as ih =>
    intro y z h1 h2
    cases y with
    | nil => cases h1
    | cons b bs =>
      cases z with
      | nil => cases h2
      | cons c cs =>
        simp only [byteCompare] at h1 h2 ⊢
        by_cases g1 : a < b
        · by_cases g4 : c < b
          · rw [if_neg (by omega : ¬b < c), if_pos g4] at h2
            cases h2
          · rw [if_pos (show a < c by omega)]
        · by_cases g2 : b < a
          · rw [if_neg g1, if_pos g2] at h1
            cases h1
          · rw [if_neg g1, if_neg g2] at h1
            by_cases g3 : b < c
            · rw [if_pos (show a < c by omega)]
            · by_cases g4 : c < b
              · rw [if_neg g3, if_pos g4] at h2
                cases h2
              · rw [if_neg g3, if_neg g4] at h2
                rw [if_neg (show ¬a < c by omega),
                  if_neg (show ¬c < a by omega)]
                exact ih bs cs h1 h2

theorem byteCompare_le_trans {x y z : Bytes}
    (h1 : byteCompare x y ≠ .gt) (h2 : byteCompare y z ≠ .gt) :
    byteCompare x z ≠ .gt := by
  cases hc1 : byteCompare x y with
  | gt => exact absurd hc1 h1
  | eq =>
    rw [byteCompare_eq_iff] at hc1
    subst hc1
    exact h2
  | lt =>
    cases hc2 : byteCompare y z with
    | gt => exact absurd hc2 h2
    | eq =>
      rw [byteCompare_eq_iff] at hc2
      subst hc2
      simp [hc1]
    | lt =>
      have := byteCompare_lt_trans x y z hc1 hc2
      simp [this]

theorem byteCompare_append_eqlen :
    ∀ (x y u v : Bytes), x.length = y.length →
      byteCompare (x ++ u) (y ++ v) =
        (match byteCompare x y with
         | .eq => byteCompare u v
         | o => o) := by
  intro x
  induction x with
  | nil =>
    intro y u v h
    cases y with
    | nil => simp [byteCompare]
    | cons b bs => simp at h
  | cons a as ih =>
    intro y u v h
    cases y with
    | nil => simp at h
    | cons b bs =>
      simp only [List.cons_append, byteCompare]
      split_ifs with h1 h2
      · rfl
      · rfl
      · exact ih bs u v (by simpa using h)

theorem byteCompare_cons_same (a : Nat) (x y : Bytes) :
    byteCompare (a :: x) (a :: y) = byteCompare x y := by
  simp [byteCompare]

/-! #### Digit values -/

theorem decodeBlockNumber_foldl :
    ∀ (xs : Bytes) (acc : Nat),
      xs.foldl (fun a d => a * 256 + d) acc =
        acc * 256 ^ xs.length + xs.foldl (fun a d => a * 256 + d) 0 := by
  intro xs
  induction xs with
  | nil => intro acc; simp
  | cons y ys ih =>
    intro acc
    simp only [List.foldl_cons, List.length_cons]
    rw [ih (acc * 256 + y), ih (0 * 256 + y)]
    ring

theorem decodeBlockNumber_cons (x : Nat) (xs : Bytes) :
    decodeBlockNumber (x :: xs) =
      x * 256 ^ xs.length + decodeBlockNumber xs := by
  unfold decodeBlockNumber
  simp only [List.foldl_cons]
  rw [decodeBlockNumber_foldl xs (0 * 256 + x)]
  ring

theorem decodeBlockNumber_lt :
    ∀ xs : Bytes, (∀ d ∈ xs, d < 256) →
      decodeBlockNumber xs < 256 ^ xs.length := by
  intro xs
  induction xs with
  | nil => intro _; simp [decodeBlockNumber]
  | cons x ys ih =>
    intro hwf
    rw [decodeBlockNumber_cons]
    have h1 : decodeBlockNumber ys < 256 ^ ys.length :=
      ih fun d hd => hwf d (List.mem_cons_of_mem _ hd)
    have h2 : x < 256 := hwf x (List.mem_cons_self _ _)
    calc x * 256 ^ ys.length + decodeBlockNumber ys
        < x * 256 ^ ys.length + 256 ^ ys.length := by omega
      _ = (x + 1) * 256 ^ ys.length := by ring
      _ ≤ 256 * 256 ^ ys.length :=
          Nat.mul_le_mul_right _ (by omega)
      _ = 256 ^ (x :: ys).length := by
          simp [List.length_cons]
          ring

theorem decode_lt_of_byteCompare_lt :
    ∀ x y : Bytes, x.length = y.length → (∀ d ∈ x, d < 256) →
      (∀ d ∈ y, d < 256) → byteCompare x y = .lt →
      decodeBlockNumber x < decodeBlockNumber y := by
  intro x
  induction x with
  | nil =>
    intro y hlen _ _ hcmp
    cases y with
    | nil => cases hcmp
    | cons b bs => simp at hlen
  | cons a as ih =>
    intro y hlen hwx hwy hcmp
    cases y with
    | nil => simp at hlen
    | cons b bs =>
      have hlen2 : as.length = bs.length := by simpa using hlen
      rw [decodeBlockNumber_cons, decodeBlockNumber_cons, hlen2]
      simp only [byteCompare] at hcmp
      split_ifs at hcmp with h1 h2
      · have hda : decodeBlockNumber as < 256 ^ as.length := by
          exact decodeBlockNumber_lt as
            fun d hd => hwx d (List.mem_cons_of_mem _ hd)
        rw [hlen2] at hda
        calc a * 256 ^ bs.length + decodeBlockNumber as
            < a * 256 ^ bs.length + 256 ^ bs.length := by omega
          _ = (a + 1) * 256 ^ bs.length := by ring
          _ ≤ b * 256 ^ bs.length := Nat.mul_le_mul_right _ (by omega)
          _ ≤ b * 256 ^ bs.length + decodeBlockNumber bs := by omega
      · have hab : a = b := by omega
        subst hab
        have := ih bs hlen2
          (fun d hd => hwx d (List.mem_cons_of_mem _ hd))
          (fun d hd => hwy d (List.mem_cons_of_mem _ hd)) hcmp
        omega

theorem decode_le_of_byteCompare_le {x y : Bytes}
    (hlen : x.length = y.length) (hwx : ∀ d ∈ x, d < 256)
    (hwy : ∀ d ∈ y, d < 256) (hcmp : byteCompare x y ≠ .gt) :
    decodeBlockNumber x ≤ decodeBlockNumber y := by
  cases hc : byteCompare x y with
  | gt => exact absurd hc hcmp
  | eq =>
    rw [byteCompare_eq_iff] at hc
    subst hc
    exact le_rfl
  | lt => exact (decode_lt_of_byteCompare_lt x y hlen hwx hwy hc).le

theorem encodeBlockNumber_length (n : Nat) :
    (encodeBlockNumber n).length = 8 := rfl

theorem encodeBlockNumber_wf (n : Nat) :
    ∀ d ∈ encodeBlockNumber n, d < 256 := by
  intro d hd
  simp only [encodeBlockNumber, List.mem_cons, List.not_mem_nil,
    or_false] at hd
  rcases hd with h | h | h | h | h | h | h | h <;>
    · subst h
      exact Nat.mod_lt _ (by omega)

theorem decode_encodeBlockNumber (n : Nat) (h : n < 2 ^ 64) :
    decodeBlockNumber (encodeBlockNumber n) = n := by
  simp only [encodeBlockNumber, decodeBlockNumber, List.foldl_cons,
    List.foldl_nil]
  omega

/-! #### The iterator model -/

theorem insertEntry_perm (e : Bytes × Bytes) :
    ∀ l : KVStore, (insertEntry e l).Perm (e :: l) := by
  intro l
  induction l with
  | nil => simp [insertEntry]
  | cons x xs ih =>
    unfold insertEntry
    split_ifs
    · exact List.Perm.refl _
    · exact (List.Perm.cons x ih).trans (List.Perm.swap e x xs)

theorem sortEntries_perm : ∀ l : KVStore, (sortEntries l).Perm l := by
  intro l
  induction l with
  | nil => exact List.Perm.refl _
  | cons x xs ih =>
    have he : sortEntries (x :: xs) = insertEntry x (sortEntries xs) := rfl
    rw [he]
    exact (insertEntry_perm x (sortEntries xs)).trans (List.Perm.cons x ih)

theorem insertEntry_sorted (e : Bytes × Bytes) :
    ∀ l : KVStore, sortedKeys l → sortedKeys (insertEntry e l) := by
  intro l
  induction l with
  | nil => intro _; simp [insertEntry, sortedKeys]
  | cons x xs ih =>
    intro hs
    rw [sortedKeys, List.pairwise_cons] at hs
    obtain ⟨hx, hxs⟩ := hs
    unfold insertEntry
    split_ifs with hgt
    · rw [sortedKeys, List.pairwise_cons]
      have hel : byteCompare e.1 x.1 ≠ .gt := by
        have := (byteCompare_gt_iff_lt x.1 e.1).mp hgt
        simp [this]
      refine ⟨?_, List.Pairwise.cons hx hxs⟩
      intro z hz
      rcases List.mem_cons.mp hz with rfl | hz2
      · exact hel
      · exact byteCompare_le_trans hel (hx z hz2)
    · rw [sortedKeys, List.pairwise_cons]
      refine ⟨?_, ih hxs⟩
      intro z hz
      rcases List.mem_cons.mp ((insertEntry_perm e xs).mem_iff.mp hz)
        with rfl | hz2
      · exact hgt
      · exact hx z hz2

theorem sortEntries_sorted : ∀ l : KVStore, sortedKeys (sortEntries l) := by
  intro l
  induction l with
  | nil => simp [sortEntries, sortedKeys]
  | cons x xs ih =>
    have he : sortEntries (x :: xs) = insertEntry x (sortEntries xs) := rfl
    rw [he]
    exact insertEntry_sorted x _ ih

theorem iterEntries_sorted (store : KVStore) (pfx start : Bytes) :
    sortedKeys (iterEntries store pfx start) :=
  sortEntries_sorted _

theorem iterEntries_mem {store : KVStore} {pfx start : Bytes}
    {e : Bytes × Bytes} :
    e ∈ iterEntries store pfx start ↔
      e ∈ store ∧ pfx.isPrefixOf e.1 = true ∧
        byteCompare e.1 (pfx ++ start) ≠ .lt := by
  unfold iterEntries
  rw [(sortEntries_perm _).mem_iff, List.mem_filter]
  simp only [Bool.and_eq_true, decide_eq_true_eq, and_assoc]

/-! #### Number-prefixed key decomposition -/

theorem key41_decompose {k : Bytes}
    (hlen : k.length = headerPfx.length + 8 + 32)
    (hp : headerPfx.isPrefixOf k = true) :
    ∃ d r, k = 104 :: (d ++ r) ∧ d.length = 8 ∧ r.length = 32 ∧
      (k.drop headerPfx.length).take 8 = d := by
  have hpre : headerPfx <+: k := List.isPrefixOf_iff_prefix.mp hp
  obtain ⟨t, ht⟩ := hpre
  have htl : t.length = 40 := by
    have := congrArg List.length ht
    simp only [List.length_append] at this
    simp only [headerPfx, List.length_singleton] at this hlen
    omega
  refine ⟨t.take 8, t.drop 8, ?_, ?_, ?_, ?_⟩
  · rw [List.take_append_drop, ← ht]
    rfl
  · rw [List.length_take]
    omega
  · rw [List.length_drop]
    omega
  · rw [← ht]
    rfl

theorem keyNum_mono_41 {k1 k2 : Bytes}
    (h1 : k1.length = headerPfx.length + 8 + 32)
    (h2 : k2.length = headerPfx.length + 8 + 32)
    (hp1 : headerPfx.isPrefixOf k1 = true)
    (hp2 : headerPfx.isPrefixOf k2 = true)
    (hw1 : ∀ d ∈ k1, d < 256) (hw2 : ∀ d ∈ k2, d < 256)
    (hcmp : byteCompare k1 k2 ≠ .gt) :
    keyNum k1 ≤ keyNum k2 := by
  obtain ⟨d1, r1, he1, hd1, hr1, hk1⟩ := key41_decompose h1 hp1
  obtain ⟨d2, r2, he2, hd2, hr2, hk2⟩ := key41_decompose h2 hp2
  unfold keyNum
  rw [hk1, hk2]
  rw [he1, he2, byteCompare_cons_same,
    byteCompare_append_eqlen d1 d2 r1 r2 (by omega)] at hcmp
  have hwd1 : ∀ x ∈ d1, x < 256 := by
    intro x hx
    apply hw1
    rw [he1]
    exact List.mem_cons_of_mem _ (List.mem_append_left _ hx)
  have hwd2 : ∀ x ∈ d2, x < 256 := by
    intro x hx
    apply hw2
    rw [he2]
    exact List.mem_cons_of_mem _ (List.mem_append_left _ hx)
  cases hc : byteCompare d1 d2 with
  | gt => rw [hc] at hcmp; simp at hcmp
  | eq =>
    rw [byteCompare_eq_iff] at hc
    rw [hc]
  | lt =>
    exact (decode_lt_of_byteCompare_lt d1 d2 (by omega) hwd1 hwd2 hc).le

theorem keyNum_ge_start {k : Bytes} {first : Nat} (hf : first < 2 ^ 64)
    (hlen : k.length = headerPfx.length + 8 + 32)
    (hp : headerPfx.isPrefixOf k = true)
    (hw : ∀ d ∈ k, d < 256)
    (hcmp : byteCompare k (headerPfx ++ encodeBlockNumber first) ≠ .lt) :
    first ≤ keyNum k := by
  obtain ⟨d, r, he, hd, hr, hk⟩ := key41_decompose hlen hp
  unfold keyNum
  rw [hk]
  have hrw : headerPfx ++ encodeBlockNumber first =
      104 :: (encodeBlockNumber first ++ []) := by
    simp [headerPfx]
  rw [he, hrw, byteCompare_cons_same,
    byteCompare_append_eqlen d (encodeBlockNumber first) r []
      (by rw [hd, encodeBlockNumber_length])] at hcmp
  have hwd : ∀ x ∈ d, x < 256 := by
    intro x hx
    apply hw
    rw [he]
    exact List.mem_cons_of_mem _ (List.mem_append_left _ hx)
  cases hc : byteCompare d (encodeBlockNumber first) with
  | lt => rw [hc] at hcmp; simp at hcmp
  | eq =>
    rw [byteCompare_eq_iff] at hc
    rw [hc, decode_encodeBlockNumber first hf]
  | gt =>
    have hlt := (byteCompare_gt_iff_lt _ _).mp hc
    have hdec := decode_lt_of_byteCompare_lt _ _
      (by rw [hd, encodeBlockNumber_length]) (encodeBlockNumber_wf first)
      hwd hlt
    rw [decode_encodeBlockNumber first hf] at hdec
    omega

/-! ### C6: the all-hashes range query -/

theorem hashesInRangeLoop_sound (last keyLength : Nat) :
    ∀ (entries : KVStore) (p : Nat × Bytes),
      p ∈ hashesInRangeLoop last keyLength entries →
      ∃ e ∈ entries, e.1.length = keyLength ∧
        p = (keyNum e.1, bytesToHash (e.1.drop (e.1.length - 32))) ∧
        p.1 ≤ last := by
  intro entries
  induction entries with
  | nil => intro p hp; simp [hashesInRangeLoop] at hp
  | cons kv rest ih =>
    intro p hp
    obtain ⟨k, v⟩ := kv
    unfold hashesInRangeLoop at hp
    by_cases hl : k.length ≠ keyLength
    · rw [if_pos hl] at hp
      obtain ⟨e, he, h1, h2, h3⟩ := ih p hp
      exact ⟨e, List.mem_cons_of_mem _ he, h1, h2, h3⟩
    · rw [if_neg hl] at hp
      dsimp only at hp
      by_cases hn : last <
          decodeBlockNumber ((k.drop headerPfx.length).take 8)
      · rw [if_pos hn] at hp
        simp at hp
      · rw [if_neg hn] at hp
        rcases List.mem_cons.mp hp with rfl | hp2
        · refine ⟨(k, v), List.mem_cons_self _ _, ?_, rfl, ?_⟩
          · dsimp only
            omega
          · dsimp only
            omega
        · obtain ⟨e, he, h1, h2, h3⟩ := ih p hp2
          exact ⟨e, List.mem_cons_of_mem _ he, h1, h2, h3⟩

theorem hashesInRangeLoop_ascending (last : Nat) :
    ∀ entries : KVStore,
      sortedKeys entries →
      (∀ e ∈ entries, entryWf e) →
      (∀ e ∈ entries, headerPfx.isPrefixOf e.1 = true) →
      (hashesInRangeLoop last (headerPfx.length + 8 + 32) entries).Pairwise
        fun p q => p.1 ≤ q.1 := by
  intro entries
  induction entries with
  | nil => intro _ _ _; simp [hashesInRangeLoop]
  | cons kv rest ih =>
    intro hs hwf hpfx
    obtain ⟨k, v⟩ := kv
    rw [sortedKeys, List.pairwise_cons] at hs
    obtain ⟨hk, hrest⟩ := hs
    unfold hashesInRangeLoop
    by_cases hl : k.length ≠ headerPfx.length + 8 + 32
    · rw [if_pos hl]
      exact ih hrest (fun e he => hwf e (List.mem_cons_of_mem _ he))
        (fun e he => hpfx e (List.mem_cons_of_mem _ he))
    · rw [if_neg hl]
      dsimp only
      by_cases hn : last <
          decodeBlockNumber ((k.drop headerPfx.length).take 8)
      · rw [if_pos hn]
        simp
      · rw [if_neg hn]
        rw [List.pairwise_cons]
        refine ⟨?_, ih hrest (fun e he => hwf e (List.mem_cons_of_mem _ he))
          (fun e he => hpfx e (List.mem_cons_of_mem _ he))⟩
        intro q hq
        obtain ⟨e, he, hel, hq2, hq3⟩ :=
          hashesInRangeLoop_sound last _ rest q hq
        subst hq2
        dsimp only
        exact keyNum_mono_41 (by omega) hel
          (hpfx _ (List.mem_cons_self _ _))
          (hpfx _ (List.mem_cons_of_mem _ he))
          (hwf _ (List.mem_cons_self _ _))
          (hwf _ (List.mem_cons_of_mem _ he)) (hk e he)

/-- Counterexample for C6: two fork headers stored at the same height 5
under different hashes are both returned by the range query — reorg-fork
entries are not ignored. -/
theorem readAllHashesInRange_fork_counterexample :
    ReadAllHashesInRange
        [(headerKey 5 hashX, [1]), (headerKey 5 hashW, [1])] 5 5 =
      [(5, hashW), (5, hashX)] ∧ hashW ≠ hashX := by
  decide

/-- C6 (amended): the range query returns `(number, hash)` pairs in
ascending number order, inclusive of both bounds; it includes a key
exactly when the key's length matches the header-entry encoding
(prefix + 8 + 32) — so reorg-fork entries at the same number with
different hash suffixes are all returned — while keys of other lengths
that merely share the number prefix (canonical-suffix entries,
total-difficulty entries) are ignored. -/
theorem readAllHashesInRange_spec :
    (∀ (store : KVStore) (first last : Nat),
      first < 2 ^ 64 →
      (∀ e ∈ store, entryWf e) →
      (ReadAllHashesInRange store first last).Pairwise
          (fun p q => p.1 ≤ q.1) ∧
        ∀ p ∈ ReadAllHashesInRange store first last,
          ∃ e ∈ store, e.1.length = headerPfx.length + 8 + 32 ∧
            headerPfx.isPrefixOf e.1 = true ∧
            p = (keyNum e.1, bytesToHash (e.1.drop (e.1.length - 32))) ∧
            first ≤ p.1 ∧ p.1 ≤ last) ∧
    ReadAllHashesInRange forkStore 4 5 =
      [(4, tagHash 4), (5, hashW), (5, hashX)] := by
  constructor
  · intro store first last hf hwf
    constructor
    · exact hashesInRangeLoop_ascending last _
        (iterEntries_sorted store headerPfx (encodeBlockNumber first))
        (fun e he => hwf e (iterEntries_mem.mp he).1)
        (fun e he => (iterEntries_mem.mp he).2.1)
    · intro p hp
      obtain ⟨e, he, h1, h2, h3⟩ :=
        hashesInRangeLoop_sound last _ _ p hp
      obtain ⟨hes, hep, heg⟩ := iterEntries_mem.mp he
      refine ⟨e, hes, h1, hep, h2, ?_, h3⟩
      subst h2
      dsimp only
      exact keyNum_ge_start hf h1 hep (hwf e hes) heg
  · decide

/-- Witness for C6: the concrete fork store yields an ascending result. -/
theorem readAllHashesInRange_spec_witness :
    (ReadAllHashesInRange forkStore 4 5).Pairwise
      (fun p q => p.1 ≤ q.1) :=
  (readAllHashesInRange_spec.1 forkStore 4 5 (by decide) (by decide)).1

/-! ### C7: the canonical-hash range query with limit -/

theorem headerHashKey_cons (n : Nat) :
    headerHashKey n = 104 :: (encodeBlockNumber n ++ headerHashSuffix) := rfl

theorem canonKey_decompose {k : Bytes} (hc : canonKey k) :
    ∃ b0 d, k = b0 :: (d ++ headerHashSuffix) ∧ d.length = 8 ∧
      (k.drop headerPfx.length).take 8 = d := by
  obtain ⟨hlen, hsuf⟩ := hc
  cases k with
  | nil => simp [headerPfx] at hlen
  | cons b0 t =>
    have htl : t.length = 9 := by
      simp only [List.length_cons, headerPfx, List.length_nil] at hlen
      omega
    have hds : t.drop 8 = headerHashSuffix := by
      have h9 : (b0 :: t).length - 1 = 9 := by
        simp [htl]
      rw [h9, show (9 : Nat) = 8 + 1 from rfl, List.drop_succ_cons] at hsuf
      exact hsuf
    refine ⟨b0, t.take 8, ?_, ?_, ?_⟩
    · rw [← hds, List.take_append_drop]
    · rw [List.length_take]
      omega
    · rfl

theorem canon_window_head {b0 : Nat} {t : Bytes} {lo hi : Nat}
    (hge : byteCompare (b0 :: t) (headerHashKey lo) ≠ .lt)
    (hlt : byteCompare (b0 :: t) (headerHashKey hi) = .lt) :
    b0 = 104 := by
  rw [headerHashKey_cons] at hge hlt
  by_cases h1 : b0 < 104
  · rw [show byteCompare (b0 :: t)
        (104 :: (encodeBlockNumber lo ++ headerHashSuffix)) = .lt from by
      simp only [byteCompare]
      rw [if_pos h1]] at hge
    exact absurd rfl hge
  · by_cases h2 : 104 < b0
    · rw [show byteCompare (b0 :: t)
          (104 :: (encodeBlockNumber hi ++ headerHashSuffix)) = .gt from by
        simp only [byteCompare]
        rw [if_neg (by omega), if_pos h2]] at hlt
      cases hlt
    · omega

theorem canon_window_num {k : Bytes} {lo hi : Nat} (hlo : lo < 2 ^ 64)
    (hhi : hi < 2 ^ 64) (hc : canonKey k) (hw : ∀ d ∈ k, d < 256)
    (hge : byteCompare k (headerHashKey lo) ≠ .lt)
    (hlt : byteCompare k (headerHashKey hi) = .lt) :
    lo ≤ keyNum k ∧ keyNum k < hi := by
  obtain ⟨b0, d, he, hd, hk⟩ := canonKey_decompose hc
  subst he
  have hb0 : b0 = 104 := canon_window_head hge hlt
  subst hb0
  rw [headerHashKey_cons, byteCompare_cons_same,
    byteCompare_append_eqlen d (encodeBlockNumber lo) headerHashSuffix
      headerHashSuffix (by rw [hd, encodeBlockNumber_length])] at hge
  rw [headerHashKey_cons, byteCompare_cons_same,
    byteCompare_append_eqlen d (encodeBlockNumber hi) headerHashSuffix
      headerHashSuffix (by rw [hd, encodeBlockNumber_length])] at hlt
  unfold keyNum
  rw [hk]
  have hwd : ∀ x ∈ d, x < 256 := by
    intro x hx
    exact hw x (List.mem_cons_of_mem _ (List.mem_append_left _ hx))
  constructor
  · cases hcl : byteCompare d (encodeBlockNumber lo) with
    | lt => rw [hcl] at hge; simp at hge
    | eq =>
      rw [byteCompare_eq_iff] at hcl
      rw [hcl, decode_encodeBlockNumber lo hlo]
    | gt =>
      have hlt2 := (byteCompare_gt_iff_lt _ _).mp hcl
      have hdec := decode_lt_of_byteCompare_lt _ _
        (by rw [encodeBlockNumber_length, hd]) (encodeBlockNumber_wf lo)
        hwd hlt2
      rw [decode_encodeBlockNumber lo hlo] at hdec
      omega
  · cases hch : byteCompare d (encodeBlockNumber hi) with
    | gt => rw [hch] at hlt; simp at hlt
    | eq =>
      rw [hch] at hlt
      dsimp only at hlt
      rw [(byteCompare_eq_iff headerHashSuffix headerHashSuffix).mpr rfl]
        at hlt
      cases hlt
    | lt =>
      have hdec := decode_lt_of_byteCompare_lt _ _
        (by rw [hd, encodeBlockNumber_length]) hwd
        (encodeBlockNumber_wf hi) hch
      rw [decode_encodeBlockNumber hi hhi] at hdec
      exact hdec

theorem keyNum_mono_canon {lo hi : Nat} {k1 k2 : Bytes}
    (hc1 : canonKey k1) (hc2 : canonKey k2)
    (hw1 : ∀ d ∈ k1, d < 256) (hw2 : ∀ d ∈ k2, d < 256)
    (hge1 : byteCompare k1 (headerHashKey lo) ≠ .lt)
    (hlt1 : byteCompare k1 (headerHashKey hi) = .lt)
    (hge2 : byteCompare k2 (headerHashKey lo) ≠ .lt)
    (hlt2 : byteCompare k2 (headerHashKey hi) = .lt)
    (hcmp : byteCompare k1 k2 ≠ .gt) :
    keyNum k1 ≤ keyNum k2 := by
  obtain ⟨a0, d1, he1, hd1, hk1⟩ := canonKey_decompose hc1
  obtain ⟨b0, d2, he2, hd2, hk2⟩ := canonKey_decompose hc2
  subst he1
  subst he2
  have ha : a0 = 104 := canon_window_head hge1 hlt1
  have hb : b0 = 104 := canon_window_head hge2 hlt2
  subst ha
  subst hb
  rw [byteCompare_cons_same,
    byteCompare_append_eqlen d1 d2 headerHashSuffix headerHashSuffix
      (by omega)] at hcmp
  unfold keyNum
  rw [hk1, hk2]
  have hwd1 : ∀ x ∈ d1, x < 256 := fun x hx =>
    hw1 x (List.mem_cons_of_mem _ (List.mem_append_left _ hx))
  have hwd2 : ∀ x ∈ d2, x < 256 := fun x hx =>
    hw2 x (List.mem_cons_of_mem _ (List.mem_append_left _ hx))
  cases hc : byteCompare d1 d2 with
  | gt => rw [hc] at hcmp; simp at hcmp
  | eq =>
    rw [byteCompare_eq_iff] at hc
    rw [hc]
  | lt => exact (decode_lt_of_byteCompare_lt d1 d2 (by omega) hwd1 hwd2 hc).le

theorem canonicalHashesLoop_sound (endKey : Bytes) (limit : Nat) :
    ∀ (entries : KVStore) (acc : List (Nat × Bytes)) (p : Nat × Bytes),
      p ∈ canonicalHashesLoop endKey limit entries acc →
      p ∈ acc ∨ ∃ e ∈ entries, canonKey e.1 ∧
        byteCompare e.1 endKey = .lt ∧
        p = (keyNum e.1, bytesToHash e.2) := by
  intro entries
  induction entries with
  | nil => intro acc p hp; exact Or.inl hp
  | cons kv rest ih =>
    intro acc p hp
    obtain ⟨k, v⟩ := kv
    unfold canonicalHashesLoop at hp
    by_cases hbr : byteCompare k endKey ≠ .lt
    · rw [if_pos hbr] at hp
      exact Or.inl hp
    · rw [if_neg hbr] at hp
      have hbr2 : byteCompare k endKey = .lt := not_ne_iff.mp hbr
      by_cases hck : k.length = headerPfx.length + 8 + 1 ∧
          k.drop (k.length - 1) = headerHashSuffix
      · rw [if_pos hck] at hp
        dsimp only at hp
        by_cases hst : limit ≤
            (acc ++ [(decodeBlockNumber ((k.drop headerPfx.length).take 8),
              bytesToHash v)]).length
        · rw [if_pos hst] at hp
          rcases List.mem_append.mp hp with h | h
          · exact Or.inl h
          · right
            exact ⟨(k, v), List.mem_cons_self _ _, hck, hbr2,
              List.mem_singleton.mp h⟩
        · rw [if_neg hst] at hp
          rcases ih _ p hp with h | ⟨e, he, h1, h2, h3⟩
          · rcases List.mem_append.mp h with h | h
            · exact Or.inl h
            · right
              exact ⟨(k, v), List.mem_cons_self _ _, hck, hbr2,
                List.mem_singleton.mp h⟩
          · exact Or.inr ⟨e, List.mem_cons_of_mem _ he, h1, h2, h3⟩
      · rw [if_neg hck] at hp
        rcases ih acc p hp with h | ⟨e, he, h1, h2, h3⟩
        · exact Or.inl h
        · exact Or.inr ⟨e, List.mem_cons_of_mem _ he, h1, h2, h3⟩

theorem canonicalHashesLoop_length (endKey : Bytes) (limit : Nat) :
    ∀ (entries : KVStore) (acc : List (Nat × Bytes)),
      acc.length < limit →
      (canonicalHashesLoop endKey limit entries acc).length ≤ limit := by
  intro entries
  induction entries with
  | nil => intro acc hacc; exact hacc.le
  | cons kv rest ih =>
    intro acc hacc
    obtain ⟨k, v⟩ := kv
    unfold canonicalHashesLoop
    by_cases hbr : byteCompare k endKey ≠ .lt
    · rw [if_pos hbr]
      exact hacc.le
    · rw [if_neg hbr]
      by_cases hck : k.length = headerPfx.length + 8 + 1 ∧
          k.drop (k.length - 1) = headerHashSuffix
      · rw [if_pos hck]
        dsimp only
        by_cases hst : limit ≤
            (acc ++ [(decodeBlockNumber ((k.drop headerPfx.length).take 8),
              bytesToHash v)]).length
        · rw [if_pos hst]
          rw [List.length_append, List.length_singleton]
          omega
        · rw [if_neg hst]
          exact ih _ (by omega)
      · rw [if_neg hck]
        exact ih acc hacc

theorem canonicalHashesLoop_ascending (lo hi limit : Nat) :
    ∀ (entries : KVStore) (acc : List (Nat × Bytes)),
      sortedKeys entries →
      (∀ e ∈ entries, entryWf e) →
      (∀ e ∈ entries, byteCompare e.1 (headerHashKey lo) ≠ .lt) →
      acc.Pairwise (fun p q => p.1 ≤ q.1) →
      (∀ p ∈ acc, ∀ e ∈ entries, canonKey e.1 →
        byteCompare e.1 (headerHashKey hi) = .lt → p.1 ≤ keyNum e.1) →
      (canonicalHashesLoop (headerHashKey hi) limit entries acc).Pairwise
        fun p q => p.1 ≤ q.1 := by
  intro entries
  induction entries with
  | nil => intro acc _ _ _ hacc _; exact hacc
  | cons kv rest ih =>
    intro acc hs hwf hge hacc haccle
    obtain ⟨k, v⟩ := kv
    rw [sortedKeys, List.pairwise_cons] at hs
    obtain ⟨hk, hrest⟩ := hs
    unfold canonicalHashesLoop
    by_cases hbr : byteCompare k (headerHashKey hi) ≠ .lt
    · rw [if_pos hbr]
      exact hacc
    · rw [if_neg hbr]
      have hbr2 : byteCompare k (headerHashKey hi) = .lt := not_ne_iff.mp hbr
      by_cases hck : k.length = headerPfx.length + 8 + 1 ∧
          k.drop (k.length - 1) = headerHashSuffix
      · rw [if_pos hck]
        dsimp only
        have hacc2 : (acc ++
            [(decodeBlockNumber ((k.drop headerPfx.length).take 8),
              bytesToHash v)]).Pairwise (fun p q => p.1 ≤ q.1) := by
          rw [List.pairwise_append]
          refine ⟨hacc, List.pairwise_singleton _ _, ?_⟩
          intro p hp q hq
          rw [List.mem_singleton] at hq
          subst hq
          exact haccle p hp (k, v) (List.mem_cons_self _ _) hck hbr2
        by_cases hst : limit ≤
            (acc ++ [(decodeBlockNumber ((k.drop headerPfx.length).take 8),
              bytesToHash v)]).length
        · rw [if_pos hst]
          exact hacc2
        · rw [if_neg hst]
          refine ih _ hrest (fun e he => hwf e (List.mem_cons_of_mem _ he))
            (fun e he => hge e (List.mem_cons_of_mem _ he)) hacc2 ?_
          intro p hp e he hcke hlte
          rcases List.mem_append.mp hp with hpa | hpn
          · exact haccle p hpa e (List.mem_cons_of_mem _ he) hcke hlte
          · rw [List.mem_singleton] at hpn
            subst hpn
            dsimp only
            exact keyNum_mono_canon hck hcke
              (hwf _ (List.mem_cons_self _ _))
              (hwf _ (List.mem_cons_of_mem _ he))
              (hge _ (List.mem_cons_self _ _)) hbr2
              (hge _ (List.mem_cons_of_mem _ he)) hlte (hk e he)
      · rw [if_neg hck]
        refine ih acc hrest (fun e he => hwf e (List.mem_cons_of_mem _ he))
          (fun e he => hge e (List.mem_cons_of_mem _ he)) hacc ?_
        intro p hp e he hcke hlte
        exact haccle p hp e (List.mem_cons_of_mem _ he) hcke hlte

/-- C7: `ReadAllCanonicalHashes` with `limit = 0` returns empty for every
store; with `limit > 0` it returns canonical `(number, hash)` entries in
ascending number order — counting only keys of the exact canonical length
carrying the discriminating suffix byte, with numbers from `lo` up —
stopping early with at most `limit` entries; over a chain of 11 canonical
entries at heights 10–20, the call `(10, 20, 5)` returns exactly the five
pairs at heights 10–14. -/
theorem readAllCanonicalHashes_spec :
    (∀ (store : KVStore) (lo hi : Nat),
      ReadAllCanonicalHashes store lo hi 0 = []) ∧
    (∀ (store : KVStore) (lo hi limit : Nat),
      lo < 2 ^ 64 → hi < 2 ^ 64 → 0 < limit →
      (∀ e ∈ store, entryWf e) →
      (ReadAllCanonicalHashes store lo hi limit).length ≤ limit ∧
        (ReadAllCanonicalHashes store lo hi limit).Pairwise
          (fun p q => p.1 ≤ q.1) ∧
        ∀ p ∈ ReadAllCanonicalHashes store lo hi limit,
          ∃ e ∈ store, canonKey e.1 ∧
            p = (keyNum e.1, bytesToHash e.2) ∧ lo ≤ p.1 ∧ p.1 < hi) ∧
    ReadAllCanonicalHashes canonStore 10 20 5 =
      [(10, tagHash 10), (11, tagHash 11), (12, tagHash 12),
       (13, tagHash 13), (14, tagHash 14)] := by
  refine ⟨?_, ?_, by decide⟩
  · intro store lo hi
    rfl
  · intro store lo hi limit hlo hhi hlim hwf
    unfold ReadAllCanonicalHashes
    rw [if_neg (by omega)]
    have hmem : ∀ e, e ∈ iterEntries store [] (headerHashKey lo) →
        byteCompare e.1 (headerHashKey lo) ≠ .lt := by
      intro e he
      have h := (iterEntries_mem.mp he).2.2
      rwa [List.nil_append] at h
    refine ⟨canonicalHashesLoop_length _ limit _ []
        (by simpa using hlim), ?_, ?_⟩
    · exact canonicalHashesLoop_ascending lo hi limit _ []
        (iterEntries_sorted store [] (headerHashKey lo))
        (fun e he => hwf e (iterEntries_mem.mp he).1) hmem
        (List.Pairwise.nil) (by intro p hp; cases hp)
    · intro p hp
      rcases canonicalHashesLoop_sound _ limit _ [] p hp with h | h
      · cases h
      · obtain ⟨e, he, h1, h2, h3⟩ := h
        have hnum := canon_window_num hlo hhi h1
          (hwf e (iterEntries_mem.mp he).1) (hmem e he) h2
        refine ⟨e, (iterEntries_mem.mp he).1, h1, h3, ?_, ?_⟩
        · rw [h3]
          exact hnum.1
        · rw [h3]
          exact hnum.2

/-- Witness for C7: the concrete 11-entry store satisfies the general
bound and ordering properties of the range query. -/
theorem readAllCanonicalHashes_spec_witness :
    (ReadAllCanonicalHashes canonStore 10 20 5).length ≤ 5 ∧
      (ReadAllCanonicalHashes canonStore 10 20 5).Pairwise
        (fun p q => p.1 ≤ q.1) :=
  ⟨(readAllCanonicalHashes_spec.2.1 canonStore 10 20 5 (by decide)
      (by decide) (by decide) (by decide)).1,
    (readAllCanonicalHashes_spec.2.1 canonStore 10 20 5 (by decide)
      (by decide) (by decide) (by decide)).2.1⟩

end AtlasRawdb
